import Mathlib

/-!
InsydeImageExtractor: `extractor.c`.

A shallow embedding of `find_pattern` (Boyer-Moore-Horspool search) and of
`main` (signature search, header interpretation, payload copy), followed by
the properties proved about them.

Conventions of the embedding.

* A `uint8_t` is a `Fin 256`; a `size_t` is a `Nat`, with the one subtraction
  of the source written with its wrap-around (`size_sub`).
* The loaded file is one object `mem : List Byte`.  A pointer into it is its
  offset from `in_buffer` (`begin`, `found`: `Nat`; `end_`: `Int`, because
  `main` computes `in_buffer + filesize - 1`, which lies before the buffer for
  an empty file).  Pointers are never `NULL` in the embedding except the
  result of `find_pattern`, an `Option Nat`.
* Every read goes through `load`; a read outside the object is undefined
  behaviour in C and is the fault `outOfBounds i` here.
* An LP64, little-endian platform is assumed: `long` and `size_t` are 64 bits
  wide, so `filesize = header->UsedSize` keeps the value of the `uint32_t`, and
  the `uint32_t` fields of the header are read least significant byte first.
-/

namespace InsydeImageExtractor

/-- A `uint8_t`. -/
abbrev Byte := Fin 256

/-- What stops a run of the embedded code short of a result. -/
inductive Fault where
  /-- A read at `index`, which is not inside the object read. -/
  | outOfBounds (index : Nat)
  /-- The loop budget of `search` was used up. -/
  | outOfFuel
  deriving DecidableEq, Repr

deriving instance DecidableEq for Except

def ERR_SUCCESS : Nat := 0
def ERR_NOT_FOUND : Nat := 1
def ERR_FILE_OPEN : Nat := 2
def ERR_FILE_READ : Nat := 3
def ERR_FILE_WRITE : Nat := 4
def ERR_INVALID_PARAMETER : Nat := 5
def ERR_OUT_OF_MEMORY : Nat := 6

/-- The bytes of "$_IFLASH_BIOSIMG". -/
def IFLASH_BIOSIMG_SIGNATURE : List Byte :=
  [0x24, 0x5F, 0x49, 0x46, 0x4C, 0x41, 0x53, 0x48, 0x5F, 0x42, 0x49, 0x4F,
   0x53, 0x49, 0x4D, 0x47]

def IFLASH_BIOSIMG_SIGNATURE_LENGTH : Nat := 16

/-- Value of `sizeof(IFLASH_BIOSIMG_HEADER)`: `uint8_t Signature[16]`,
`uint32_t FullSize`, `uint32_t UsedSize`; every field is naturally aligned, so
there is no padding. -/
def sizeof_IFLASH_BIOSIMG_HEADER : Nat := 16 + 4 + 4

/-- Value of `offsetof(IFLASH_BIOSIMG_HEADER, UsedSize)`. -/
def offsetof_UsedSize : Nat := 16 + 4

/-- Read of `obj[i]`. -/
def load (obj : List Byte) (i : Nat) : Except Fault Byte :=
  match obj[i]? with
  | some b => .ok b
  | none => .error (.outOfBounds i)

/-- Read of a `uint32_t` stored at offset `i` (little-endian). -/
def load_u32 (obj : List Byte) (i : Nat) : Except Fault Nat := do
  let b0 ← load obj i
  let b1 ← load obj (i + 1)
  let b2 ← load obj (i + 2)
  let b3 ← load obj (i + 3)
  pure (b0.val + 2 ^ 8 * b1.val + 2 ^ 16 * b2.val + 2 ^ 24 * b3.val)

/-- Read of the `n` bytes that start at offset `off`, in increasing order (what
`fwrite(found, sizeof(char), filesize, out_file)` reads). -/
def load_bytes (obj : List Byte) : Nat → Nat → Except Fault (List Byte)
  | _, 0 => .ok []
  | off, n + 1 => do
    let b ← load obj off
    let rest ← load_bytes obj (off + 1) n
    pure (b :: rest)

/-- Subtraction of `size_t` values (64 bits), wrap-around included. -/
def size_sub (a b : Nat) : Nat :=
  if b ≤ a then a - b else (a + 2 ^ 64 - b) % 2 ^ 64

/-- The array `size_t bad_char_skip[256]`, indexed by a `uint8_t`. -/
abbrev SkipTable := Byte → Nat

/-- Lines 46-47: `for (scan = 0; scan <= 255; scan++) bad_char_skip[scan] = plen;` -/
def skip_init (plen : Nat) : SkipTable := fun _ => plen

/-- Lines 51-52: `for (scan = 0; scan < last; scan++)
bad_char_skip[pattern[scan]] = last - scan;`.  `skip_fill pattern last tbl k` is
the table after the iterations `scan = 0, ..., k - 1`; the whole loop is
`skip_fill pattern last tbl last`. -/
def skip_fill (pattern : List Byte) (last : Nat) (tbl : SkipTable) :
    Nat → Except Fault SkipTable
  | 0 => .ok tbl
  | scan + 1 => do
    let t ← skip_fill pattern last tbl scan
    let c ← load pattern scan
    pure (fun b => if b = c then last - scan else t b)

/-- Lines 56-58: `for (scan = last; begin[scan] == pattern[scan]; scan--)
if (scan == 0) return begin;`, started at `scan`.  `true`: the loop executed
`return begin`; `false`: the loop was left at a mismatch. -/
def match_back (mem pattern : List Byte) (begin : Nat) : Nat → Except Fault Bool
  | 0 => do
    let a ← load mem (begin + 0)
    let b ← load pattern 0
    pure (decide (a = b))
  | scan + 1 => do
    let a ← load mem (begin + (scan + 1))
    let b ← load pattern (scan + 1)
    if a = b then match_back mem pattern begin scan else pure false

/-- Lines 54-64: the `while (slen >= plen)` loop and the final `return NULL`.
One unit of fuel is spent per evaluation of the loop condition. -/
def search (mem pattern : List Byte) (plen : Nat) (tbl : SkipTable) :
    Nat → Nat → Nat → Except Fault (Option Nat)
  | 0, _, _ => .error .outOfFuel
  | fuel + 1, begin, slen =>
    if plen ≤ slen then do
      let last := plen - 1
      let hit ← match_back mem pattern begin last
      if hit then pure (some begin)
      else do
        let c ← load mem (begin + last)
        search mem pattern plen tbl fuel (begin + tbl c) (size_sub slen (tbl c))
    else pure none

/-- The loop of `search` once more, with a counter: `n` is the number of
executions of the loop body so far (each one compares one window), and the
result carries the number reached when the loop is left. -/
def search_count (mem pattern : List Byte) (plen : Nat) (tbl : SkipTable) :
    Nat → Nat → Nat → Nat → Except Fault (Option Nat × Nat)
  | 0, _, _, _ => .error .outOfFuel
  | fuel + 1, begin, slen, n =>
    if plen ≤ slen then do
      let last := plen - 1
      let hit ← match_back mem pattern begin last
      if hit then pure (some begin, n + 1)
      else do
        let c ← load mem (begin + last)
        search_count mem pattern plen tbl fuel (begin + tbl c) (size_sub slen (tbl c)) (n + 1)
    else pure (none, n)

/-- The state `(begin, slen)` of the loop of `search` after `k` executions of
its body that ended in a shift (lines 60-61); `none` when the loop is left
before that, by `return begin` or because `slen < plen`. -/
def search_state (mem pattern : List Byte) (plen : Nat) (tbl : SkipTable) :
    Nat → Nat → Nat → Except Fault (Option (Nat × Nat))
  | 0, begin, slen => pure (some (begin, slen))
  | k + 1, begin, slen =>
    if plen ≤ slen then do
      let last := plen - 1
      let hit ← match_back mem pattern begin last
      if hit then pure none
      else do
        let c ← load mem (begin + last)
        search_state mem pattern plen tbl k (begin + tbl c) (size_sub slen (tbl c))
    else pure none

/-- The function `find_pattern(begin, end, pattern, plen)` on the memory `mem`.
`none` is `NULL`, `some p` the pointer `in_buffer + p`.  Of the guard in line 41
the tests `plen == 0` and `end <= begin` are kept; `!begin`, `!pattern` and
`!end` have no counterpart, the pointers of the embedding being offsets into
existing objects.  The loop gets `slen + 1` units of fuel. -/
def find_pattern (mem : List Byte) (begin : Nat) (end_ : Int) (pattern : List Byte)
    (plen : Nat) : Except Fault (Option Nat) :=
  if plen = 0 ∨ end_ ≤ (begin : Int) then pure none
  else do
    let slen := (end_ - (begin : Int)).toNat
    let last := plen - 1
    let bad_char_skip ← skip_fill pattern last (skip_init plen) last
    search mem pattern plen bad_char_skip (slen + 1) begin slen

/-- One array access of `find_pattern`: the array and the index used. -/
inductive Access where
  /-- A read `begin[scan]` or `begin[last]`; `i` is the offset of the byte read
  from `in_buffer`, that is `begin + scan` for the current `begin`. -/
  | buffer (i : Nat)
  /-- A read `pattern[i]`. -/
  | pattern (i : Nat)
  /-- A read or write `bad_char_skip[i]`. -/
  | skip (i : Nat)
  deriving DecidableEq, Repr

/-- Lines 46-47 once more, as the list of the accesses they make: the writes
`bad_char_skip[scan]` for `scan = 0, ..., 255`. -/
def skip_init_log : List Access := (List.range 256).map Access.skip

/-- The loop of `skip_fill` once more, with the list of its accesses: in the
iteration `scan` the read `pattern[scan]` and the write
`bad_char_skip[pattern[scan]]`. -/
def skip_fill_log (pattern : List Byte) (last : Nat) (tbl : SkipTable) :
    Nat → Except Fault (SkipTable × List Access)
  | 0 => .ok (tbl, [])
  | scan + 1 => do
    let x ← skip_fill_log pattern last tbl scan
    let c ← load pattern scan
    pure (fun b => if b = c then last - scan else x.1 b,
      x.2 ++ [Access.pattern scan, Access.skip c.val])

/-- The loop of `match_back` once more, with the list of its accesses: in each
evaluation of the loop condition the reads `begin[scan]` and `pattern[scan]`. -/
def match_back_log (mem pattern : List Byte) (begin : Nat) :
    Nat → Except Fault (Bool × List Access)
  | 0 => do
    let a ← load mem (begin + 0)
    let b ← load pattern 0
    pure (decide (a = b), [Access.buffer (begin + 0), Access.pattern 0])
  | scan + 1 => do
    let a ← load mem (begin + (scan + 1))
    let b ← load pattern (scan + 1)
    if a = b then do
      let x ← match_back_log mem pattern begin scan
      pure (x.1, [Access.buffer (begin + (scan + 1)), Access.pattern (scan + 1)] ++ x.2)
    else pure (false, [Access.buffer (begin + (scan + 1)), Access.pattern (scan + 1)])

/-- The loop of `search` once more, with the list of its accesses: those of the
comparison loop and, in lines 60 and 61, twice the read `begin[last]` and the
read `bad_char_skip[begin[last]]`. -/
def search_log (mem pattern : List Byte) (plen : Nat) (tbl : SkipTable) :
    Nat → Nat → Nat → Except Fault (Option Nat × List Access)
  | 0, _, _ => .error .outOfFuel
  | fuel + 1, begin, slen =>
    if plen ≤ slen then do
      let last := plen - 1
      let x ← match_back_log mem pattern begin last
      if x.1 then pure (some begin, x.2)
      else do
        let c ← load mem (begin + last)
        let y ← search_log mem pattern plen tbl fuel (begin + tbl c) (size_sub slen (tbl c))
        pure (y.1, x.2 ++ [Access.buffer (begin + last), Access.skip c.val,
          Access.buffer (begin + last), Access.skip c.val] ++ y.2)
    else pure (none, [])

/-- The function `find_pattern` once more, with the list of all the array
accesses of a call, in the order in which they are made. -/
def find_pattern_log (mem : List Byte) (begin : Nat) (end_ : Int) (pattern : List Byte)
    (plen : Nat) : Except Fault (Option Nat × List Access) :=
  if plen = 0 ∨ end_ ≤ (begin : Int) then pure (none, [])
  else do
    let slen := (end_ - (begin : Int)).toNat
    let last := plen - 1
    let x ← skip_fill_log pattern last (skip_init plen) last
    let y ← search_log mem pattern plen x.1 (slen + 1) begin slen
    pure (y.1, skip_init_log ++ x.2 ++ y.2)

/-- What the C library calls of `main` do: the environment of a run. -/
structure World where
  /-- Number of command-line arguments, program name included. -/
  argc : Nat
  /-- Result of `fopen(argv[1], "r+b")`: `none` when it fails, else the bytes of
  the input file. -/
  in_file : Option (List Byte)
  /-- Whether `malloc(filesize)` returns a non-null pointer. -/
  malloc_ok : Bool
  /-- Whether `fread` delivers all `filesize` bytes. -/
  fread_ok : Bool
  /-- Whether `fopen(argv[2], "wb")` succeeds. -/
  out_file_ok : Bool
  /-- Result of `fwrite`: `none` when every byte is written, `some k` when at
  most `k` bytes are. -/
  fwrite_short : Option Nat

/-- How a run of `main` ends. -/
structure Exit where
  /-- The value returned by `main`. -/
  code : Nat
  /-- The bytes written to the output file; `none` when it was never opened. -/
  output : Option (List Byte)
  deriving DecidableEq, Repr

/-- Lines 114-117 of `main`: `end = in_buffer + filesize - 1;` and the call
`find_pattern(in_buffer, end, IFLASH_BIOSIMG_SIGNATURE, 16)`. -/
def main_search (in_buffer : List Byte) : Except Fault (Option Nat) :=
  let filesize : Int := in_buffer.length
  let end_ : Int := 0 + filesize - 1
  find_pattern in_buffer 0 end_ IFLASH_BIOSIMG_SIGNATURE IFLASH_BIOSIMG_SIGNATURE_LENGTH

/-- Lines 125-127 of `main`: `header = found; found += sizeof(IFLASH_BIOSIMG_HEADER);
filesize = header->UsedSize;`.  The result is the pair `(found, filesize)`
handed to `fwrite`: start and length of the payload. -/
def main_range (in_buffer : List Byte) (found : Nat) : Except Fault (Nat × Nat) := do
  let header := found
  let found := found + sizeof_IFLASH_BIOSIMG_HEADER
  let filesize ← load_u32 in_buffer (header + offsetof_UsedSize)
  pure (found, filesize)

/-- Lines 129-147 of `main`: open the output file, write the payload. -/
def main_write (w : World) (in_buffer : List Byte) (found filesize : Nat) :
    Except Fault Exit :=
  if !w.out_file_ok then pure ⟨ERR_FILE_OPEN, none⟩
  else do
    let data ← load_bytes in_buffer found filesize
    let written := match w.fwrite_short with
      | none => data
      | some k => data.take k
    let read := written.length
    if read ≠ filesize then pure ⟨ERR_FILE_WRITE, some written⟩
    else pure ⟨ERR_SUCCESS, some written⟩

/-- The function `main`. -/
def main (w : World) : Except Fault Exit :=
  if w.argc < 3 then pure ⟨ERR_INVALID_PARAMETER, none⟩
  else match w.in_file with
    | none => pure ⟨ERR_FILE_OPEN, none⟩
    | some in_buffer =>
      if !w.malloc_ok then pure ⟨ERR_OUT_OF_MEMORY, none⟩
      else if !w.fread_ok then pure ⟨ERR_FILE_READ, none⟩
      else do
        let found ← main_search in_buffer
        match found with
        | none => pure ⟨ERR_NOT_FOUND, none⟩
        | some found => do
          let (found, filesize) ← main_range in_buffer found
          main_write w in_buffer found filesize

/-- A run in which the input file holds `content` and every library call
succeeds. -/
def World.loaded (content : List Byte) : World :=
  ⟨3, some content, true, true, true, none⟩

/-! ## Specification vocabulary -/

/-- The bytes in `[begin, end_)` of `mem`: the buffer `find_pattern` is given. -/
def window (mem : List Byte) (begin : Nat) (end_ : Int) : List Byte :=
  (mem.drop begin).take (end_ - (begin : Int)).toNat

/-- The pattern occurs in `buf` starting at index `i`: `buf[i .. i + plen)` is
inside `buf` and equals `pattern` byte for byte. -/
def OccursAt (buf pattern : List Byte) (i : Nat) : Prop :=
  (buf.drop i).take pattern.length = pattern

instance (buf pattern : List Byte) (i : Nat) : Decidable (OccursAt buf pattern i) := by
  unfold OccursAt; infer_instance

/-- The pattern occurs nowhere in `buf`. -/
def Absent (buf pattern : List Byte) : Prop :=
  ∀ i, ¬ OccursAt buf pattern i

/-- The pattern stands in `mem` at the absolute position `q`. -/
def MatchAt (mem pattern : List Byte) (q : Nat) : Prop :=
  ∀ k, k < pattern.length → mem[q + k]? = pattern[k]?

/-- What a search of the positions `b ≤ q`, `q + plen ≤ e` has to return: the
least position where the pattern stands, or `none` when there is none. -/
def SearchSpec (mem pattern : List Byte) (b e : Nat) : Option Nat → Prop
  | none => ∀ j, b ≤ j → j + pattern.length ≤ e → ¬ MatchAt mem pattern j
  | some q => b ≤ q ∧ q + pattern.length ≤ e ∧ MatchAt mem pattern q ∧
      ∀ j, b ≤ j → j < q → ¬ MatchAt mem pattern j

/-- An access stays inside its array: a buffer read inside `[begin, end_)`, a
pattern read below `plen`, a skip-table index below 256. -/
def Access.inside (begin : Nat) (end_ : Int) (plen : Nat) : Access → Prop
  | .buffer i => begin ≤ i ∧ (i : Int) < end_
  | .pattern i => i < plen
  | .skip i => i < 256

/-- The four bytes that encode `U` as a little-endian `uint32_t`. -/
def LE32 (U : Nat) : List Byte :=
  [Fin.ofNat (U % 256), Fin.ofNat (U / 2 ^ 8 % 256), Fin.ofNat (U / 2 ^ 16 % 256),
   Fin.ofNat (U / 2 ^ 24 % 256)]

/-! ## Reads -/

theorem load_ok {obj : List Byte} {i : Nat} (h : i < obj.length) :
    load obj i = .ok obj[i] := by
  simp [load, List.getElem?_eq_getElem h]

theorem load_of_getElem? {obj : List Byte} {i : Nat} {b : Byte} (h : obj[i]? = some b) :
    load obj i = .ok b := by
  simp [load, h]

theorem load_oob {obj : List Byte} {i : Nat} (h : obj.length ≤ i) :
    load obj i = .error (.outOfBounds i) := by
  simp [load, List.getElem?_eq_none h]

theorem occursAt_iff (buf pattern : List Byte) (i : Nat) :
    OccursAt buf pattern i ↔ ∀ k, k < pattern.length → buf[i + k]? = pattern[k]? := by
  unfold OccursAt
  constructor
  · intro h k hk
    have h1 : ((buf.drop i).take pattern.length)[k]? = pattern[k]? := by rw [h]
    rw [List.getElem?_take_of_lt hk, List.getElem?_drop] at h1
    exact h1
  · intro h
    apply List.ext_getElem?
    intro k
    by_cases hk : k < pattern.length
    · rw [List.getElem?_take_of_lt hk, List.getElem?_drop]
      exact h k hk
    · have hk' : pattern.length ≤ k := Nat.le_of_not_lt hk
      rw [List.getElem?_eq_none hk', List.getElem?_eq_none]
      exact le_trans (List.length_take_le _ _) hk'

theorem occursAt_bound {buf pattern : List Byte} {i : Nat} (h : OccursAt buf pattern i)
    (hp : pattern ≠ []) : i + pattern.length ≤ buf.length := by
  have hpos : 0 < pattern.length := List.length_pos.mpr hp
  have h1 := (occursAt_iff buf pattern i).mp h (pattern.length - 1) (by omega)
  by_contra hc
  rw [List.getElem?_eq_none (by omega)] at h1
  have h2 : pattern[pattern.length - 1]? = some (pattern[pattern.length - 1]) :=
    List.getElem?_eq_getElem (by omega)
  rw [h2] at h1
  exact absurd h1 (by simp)

theorem window_getElem? (mem : List Byte) (begin n k : Nat) :
    (window mem begin ((begin : Int) + (n : Int)))[k]? =
      if k < n then mem[begin + k]? else none := by
  have hn : ((begin : Int) + (n : Int) - (begin : Int)).toNat = n := by omega
  unfold window
  rw [hn]
  by_cases hk : k < n
  · rw [List.getElem?_take_of_lt hk, List.getElem?_drop, if_pos hk]
  · rw [if_neg hk, List.getElem?_eq_none]
    exact le_trans (List.length_take_le _ _) (Nat.le_of_not_lt hk)

/-! ## The comparison loop -/

theorem match_back_ok (mem pattern : List Byte) (begin scan : Nat)
    (hm : begin + scan < mem.length) (hp : scan < pattern.length) :
    ∃ r, match_back mem pattern begin scan = .ok r ∧
      (r = true ↔ ∀ k, k ≤ scan → mem[begin + k]? = pattern[k]?) := by
  induction scan with
  | zero =>
    have h0 : begin + 0 < mem.length := hm
    refine ⟨decide (mem[begin + 0] = pattern[0]), ?_, ?_⟩
    · simp only [match_back, load_ok h0, load_ok hp, bind, Except.bind, pure, Except.pure]
    · rw [decide_eq_true_iff]
      constructor
      · intro h k hk
        have hk0 : k = 0 := by omega
        subst hk0
        rw [List.getElem?_eq_getElem h0, List.getElem?_eq_getElem hp, h]
      · intro h
        have := h 0 (le_refl 0)
        rw [List.getElem?_eq_getElem h0, List.getElem?_eq_getElem hp] at this
        exact Option.some.inj this
  | succ n ih =>
    obtain ⟨r, hr, hspec⟩ := ih (by omega) (by omega)
    by_cases heq : mem[begin + (n + 1)] = pattern[n + 1]
    · refine ⟨r, ?_, ?_⟩
      · simp only [match_back, load_ok hm, load_ok hp, bind, Except.bind, heq, if_true]
        exact hr
      · rw [hspec]
        constructor
        · intro h k hk
          by_cases hkn : k ≤ n
          · exact h k hkn
          · have hk1 : k = n + 1 := by omega
            subst hk1
            rw [List.getElem?_eq_getElem hm, List.getElem?_eq_getElem hp, heq]
        · intro h k hk
          exact h k (by omega)
    · refine ⟨false, ?_, ?_⟩
      · simp only [match_back, load_ok hm, load_ok hp, bind, Except.bind, heq, if_false,
          pure, Except.pure]
      · constructor
        · intro h
          exact absurd h (by simp)
        · intro h
          have := h (n + 1) (le_refl _)
          rw [List.getElem?_eq_getElem hm, List.getElem?_eq_getElem hp] at this
          exact absurd (Option.some.inj this) heq

/-! ## The skip table -/

theorem skip_fill_ok (pattern : List Byte) (last plen : Nat) (hplen : plen = last + 1)
    (k : Nat) (hk : k ≤ last) (hp : k ≤ pattern.length) :
    ∃ t, skip_fill pattern last (skip_init plen) k = .ok t ∧
      (∀ c, 1 ≤ t c ∧ t c ≤ plen) ∧
      (∀ j c, j < k → pattern[j]? = some c → t c ≤ last - j) := by
  induction k with
  | zero =>
    refine ⟨skip_init plen, rfl, ?_, ?_⟩
    · intro c
      simp only [skip_init]
      omega
    · intro j c hj
      omega
  | succ n ih =>
    obtain ⟨t, ht, hb, hs⟩ := ih (by omega) (by omega)
    have hn : n < pattern.length := by omega
    refine ⟨fun b => if b = pattern[n] then last - n else t b, ?_, ?_, ?_⟩
    · simp only [skip_fill, ht, load_ok hn, bind, Except.bind, pure, Except.pure]
    · intro c
      by_cases hc : c = pattern[n]
      · simp only [hc, if_true]
        omega
      · simp only [hc, if_false]
        exact hb c
    · intro j c hj hjc
      by_cases hc : c = pattern[n]
      · simp only [hc, if_true]
        omega
      · simp only [hc, if_false]
        have hjn : j ≠ n := by
          intro h
          subst h
          rw [List.getElem?_eq_getElem hn] at hjc
          exact hc (Option.some.inj hjc).symm
        exact hs j c (by omega) hjc

/-! ## The search loop -/

theorem shift_safe (mem pattern : List Byte) (t : SkipTable)
    (hs : ∀ j c, j < pattern.length - 1 → pattern[j]? = some c →
      t c ≤ pattern.length - 1 - j)
    (begin d : Nat) (c : Byte) (hc : mem[begin + (pattern.length - 1)]? = some c)
    (hd0 : 0 < d) (hd : d < t c) (hdl : d ≤ pattern.length - 1) :
    ¬ MatchAt mem pattern (begin + d) := by
  intro hm
  have h1 := hm (pattern.length - 1 - d) (by omega)
  have h2 : begin + d + (pattern.length - 1 - d) = begin + (pattern.length - 1) := by omega
  rw [h2, hc] at h1
  have h3 := hs (pattern.length - 1 - d) c (by omega) h1.symm
  omega

theorem search_ok (mem pattern : List Byte) (plen : Nat) (hplen : plen = pattern.length)
    (hpos : 0 < plen) (t : SkipTable) (hb : ∀ c, 1 ≤ t c ∧ t c ≤ plen)
    (hs : ∀ j c, j < pattern.length - 1 → pattern[j]? = some c →
      t c ≤ pattern.length - 1 - j) :
    ∀ fuel begin slen, slen < fuel → begin + slen ≤ mem.length →
      ∃ r, search mem pattern plen t fuel begin slen = .ok r ∧
        SearchSpec mem pattern begin (begin + slen) r := by
  intro fuel
  induction fuel with
  | zero =>
    intro begin slen h
    omega
  | succ n ih =>
    intro begin slen hfuel hmem
    by_cases hle : plen ≤ slen
    · obtain ⟨r0, hr0, hspec0⟩ :=
        match_back_ok mem pattern begin (plen - 1) (by omega) (by omega)
      cases r0 with
      | true =>
        refine ⟨some begin, ?_, ?_⟩
        · simp only [search, hle, if_true, hr0, bind, Except.bind, pure, Except.pure]
        · refine ⟨le_refl _, by omega, ?_, ?_⟩
          · intro k hk
            exact hspec0.mp rfl k (by omega)
          · intro j hj1 hj2
            omega
      | false =>
        have hlast : begin + (plen - 1) < mem.length := by omega
        have hsk := hb (mem[begin + (plen - 1)])
        have hsub : size_sub slen (t (mem[begin + (plen - 1)])) =
            slen - t (mem[begin + (plen - 1)]) := by
          unfold size_sub
          rw [if_pos (by omega)]
        obtain ⟨r, hr, hspec⟩ := ih (begin + t (mem[begin + (plen - 1)]))
          (slen - t (mem[begin + (plen - 1)])) (by omega) (by omega)
        have hend : begin + t (mem[begin + (plen - 1)]) +
            (slen - t (mem[begin + (plen - 1)])) = begin + slen := by omega
        rw [hend] at hspec
        have hno : ∀ j, begin ≤ j → j < begin + t (mem[begin + (plen - 1)]) →
            ¬ MatchAt mem pattern j := by
          intro j hj1 hj2
          by_cases hjb : j = begin
          · subst hjb
            intro hm
            have : false = true := hspec0.mpr (fun k hk => hm k (by omega))
            exact absurd this (by simp)
          · have hj : j = begin + (j - begin) := by omega
            rw [hj]
            apply shift_safe mem pattern t hs begin (j - begin) (mem[begin + (plen - 1)])
            · rw [← hplen]
              exact List.getElem?_eq_getElem hlast
            · omega
            · omega
            · omega
        refine ⟨r, ?_, ?_⟩
        · simp only [search, hle, if_true, hr0, bind, Except.bind, load_ok hlast, hsub]
          exact hr
        · cases r with
          | none =>
            intro j hj1 hj2
            by_cases hj : j < begin + t (mem[begin + (plen - 1)])
            · exact hno j hj1 hj
            · exact hspec j (by omega) hj2
          | some q =>
            obtain ⟨h1, h2, h3, h4⟩ := hspec
            refine ⟨by omega, h2, h3, ?_⟩
            intro j hj1 hj2
            by_cases hj : j < begin + t (mem[begin + (plen - 1)])
            · exact hno j hj1 hj
            · exact h4 j (by omega) hj2
    · refine ⟨none, ?_, ?_⟩
      · simp only [search, hle, if_false, pure, Except.pure]
      · intro j hj1 hj2
        omega

theorem find_pattern_ok (mem pattern : List Byte) (begin n : Nat) (hp : pattern ≠ [])
    (hmem : begin + n ≤ mem.length) :
    ∃ r, find_pattern mem begin ((begin : Int) + (n : Int)) pattern pattern.length = .ok r ∧
      SearchSpec mem pattern begin (begin + n) r := by
  have hpos : 0 < pattern.length := List.length_pos.mpr hp
  by_cases hn : n = 0
  · subst hn
    refine ⟨none, ?_, ?_⟩
    · simp [find_pattern, pure, Except.pure]
    · intro j hj1 hj2
      omega
  · obtain ⟨t, ht, hb, hs⟩ := skip_fill_ok pattern (pattern.length - 1) pattern.length
      (by omega) (pattern.length - 1) (le_refl _) (by omega)
    obtain ⟨r, hr, hspec⟩ := search_ok mem pattern pattern.length rfl hpos t hb
      (fun j c hj hjc => hs j c hj hjc) (n + 1) begin n (by omega) hmem
    refine ⟨r, ?_, hspec⟩
    have hguard : ¬ (pattern.length = 0 ∨ (begin : Int) + (n : Int) ≤ (begin : Int)) := by
      omega
    have hslen : ((begin : Int) + (n : Int) - (begin : Int)).toNat = n := by omega
    simp only [find_pattern, hguard, if_false, ht, bind, Except.bind, hslen]
    exact hr

/-! ## From positions in memory to occurrences in the buffer -/

theorem window_length_le (mem : List Byte) (begin : Nat) (end_ : Int) :
    (window mem begin end_).length ≤ (end_ - (begin : Int)).toNat := by
  unfold window
  exact List.length_take_le _ _

theorem occursAt_window_iff (mem pattern : List Byte) (begin n i : Nat) (hp : pattern ≠ []) :
    OccursAt (window mem begin ((begin : Int) + (n : Int))) pattern i ↔
      i + pattern.length ≤ n ∧ MatchAt mem pattern (begin + i) := by
  constructor
  · intro h
    have hbound := occursAt_bound h hp
    have hlen := window_length_le mem begin ((begin : Int) + (n : Int))
    have hn : ((begin : Int) + (n : Int) - (begin : Int)).toNat = n := by omega
    rw [hn] at hlen
    refine ⟨by omega, ?_⟩
    intro k hk
    have h1 := (occursAt_iff _ _ _).mp h k hk
    rw [window_getElem?, if_pos (by omega)] at h1
    rw [← h1]
    congr 1
    omega
  · rintro ⟨hle, hm⟩
    rw [occursAt_iff]
    intro k hk
    rw [window_getElem?, if_pos (by omega), ← hm k hk]
    congr 1
    omega

/-- The result of `find_pattern` on a buffer `[begin, end_)` that lies inside the
memory: no fault, and the offset of the leftmost occurrence of the pattern in
the buffer, or `NULL` when there is none (or the pattern is empty). -/
theorem find_pattern_window (mem pattern : List Byte) (begin : Nat) (end_ : Int)
    (hmem : end_ ≤ (mem.length : Int)) :
    ∃ r, find_pattern mem begin end_ pattern pattern.length = .ok r ∧
      match r with
      | none => pattern ≠ [] → Absent (window mem begin end_) pattern
      | some p => ∃ i, p = begin + i ∧ OccursAt (window mem begin end_) pattern i ∧
          ∀ j, j < i → ¬ OccursAt (window mem begin end_) pattern j := by
  by_cases hp : pattern = []
  · subst hp
    refine ⟨none, ?_, ?_⟩
    · simp [find_pattern, pure, Except.pure]
    · intro h
      exact absurd rfl h
  by_cases hbe : end_ ≤ (begin : Int)
  · refine ⟨none, ?_, ?_⟩
    · simp [find_pattern, hbe, pure, Except.pure]
    · intro _ i hocc
      have h1 := occursAt_bound hocc hp
      have h2 := window_length_le mem begin end_
      have h3 : (end_ - (begin : Int)).toNat = 0 := by omega
      have hpos : 0 < pattern.length := List.length_pos.mpr hp
      omega
  · obtain ⟨n, hn⟩ : ∃ n : Nat, end_ = (begin : Int) + (n : Int) :=
      ⟨(end_ - (begin : Int)).toNat, by omega⟩
    subst hn
    obtain ⟨r, hr, hspec⟩ := find_pattern_ok mem pattern begin n hp (by omega)
    refine ⟨r, hr, ?_⟩
    cases r with
    | none =>
      intro _ i hocc
      obtain ⟨h1, h2⟩ := (occursAt_window_iff mem pattern begin n i hp).mp hocc
      exact hspec (begin + i) (by omega) (by omega) h2
    | some q =>
      obtain ⟨h1, h2, h3, h4⟩ := hspec
      refine ⟨q - begin, by omega, ?_, ?_⟩
      · rw [occursAt_window_iff mem pattern begin n _ hp]
        have hq : begin + (q - begin) = q := by omega
        rw [hq]
        exact ⟨by omega, h3⟩
      · intro j hj hocc
        obtain ⟨_, h6⟩ := (occursAt_window_iff mem pattern begin n j hp).mp hocc
        exact h4 (begin + j) (by omega) (by omega) h6

/-! ## Properties of `find_pattern` -/

/-- C1. Leftmost match: for a buffer `[begin, end_)` inside the memory and a
non-empty pattern, if the pattern occurs in the buffer at index `i` and at no
smaller index, `find_pattern` returns the position `begin + i`. -/
theorem find_pattern_leftmost (mem pattern : List Byte) (begin : Nat) (end_ : Int) (i : Nat)
    (hmem : end_ ≤ (mem.length : Int)) (hp : pattern ≠ [])
    (hocc : OccursAt (window mem begin end_) pattern i)
    (hfirst : ∀ j, j < i → ¬ OccursAt (window mem begin end_) pattern j) :
    find_pattern mem begin end_ pattern pattern.length = .ok (some (begin + i)) := by
  obtain ⟨r, hr, hspec⟩ := find_pattern_window mem pattern begin end_ hmem
  rw [hr]
  cases r with
  | none => exact absurd hocc (hspec hp i)
  | some p =>
    obtain ⟨i', hp', hocc', hfirst'⟩ := hspec
    have h1 : ¬ i < i' := fun h => hfirst' i h hocc
    have h2 : ¬ i' < i := fun h => hfirst i' h hocc'
    have h3 : i' = i := by omega
    rw [hp', h3]

theorem find_pattern_leftmost_witness :
    find_pattern [1, 2, 3, 1, 2, 1, 2, 3, 7, 1, 2, 3] 1 9 [1, 2, 3] 3 = .ok (some (1 + 4)) :=
  find_pattern_leftmost [1, 2, 3, 1, 2, 1, 2, 3, 7, 1, 2, 3] [1, 2, 3] 1 9 4 (by decide) (by decide)
    (by decide) (by decide)

/-- C2. No false positives: for a buffer `[begin, end_)` inside the memory, if
the pattern occurs nowhere in the buffer then `find_pattern` returns `NULL`; and
whenever it returns a position, that position is `begin + i` for an offset `i`
with `i + plen ≤` the buffer length and the `plen` buffer bytes from `i` equal
to the pattern. -/
theorem find_pattern_no_false_positive (mem pattern : List Byte) (begin : Nat) (end_ : Int)
    (hmem : end_ ≤ (mem.length : Int)) :
    (Absent (window mem begin end_) pattern →
      find_pattern mem begin end_ pattern pattern.length = .ok none) ∧
    (∀ p, find_pattern mem begin end_ pattern pattern.length = .ok (some p) →
      ∃ i, p = begin + i ∧ i + pattern.length ≤ (window mem begin end_).length ∧
        ((window mem begin end_).drop i).take pattern.length = pattern) := by
  obtain ⟨r, hr, hspec⟩ := find_pattern_window mem pattern begin end_ hmem
  rw [hr]
  constructor
  · intro habs
    cases r with
    | none => rfl
    | some p =>
      obtain ⟨i, _, hocc, _⟩ := hspec
      exact absurd hocc (habs i)
  · intro p hp
    cases r with
    | none => exact absurd hp (by simp)
    | some q =>
      have hq : q = p := by
        injection hp with h
        exact Option.some.inj h
      subst hq
      obtain ⟨i, hi, hocc, _⟩ := hspec
      have hne : pattern ≠ [] := by
        intro hnil
        subst hnil
        simp [find_pattern, pure, Except.pure] at hr
      exact ⟨i, hi, occursAt_bound hocc hne, hocc⟩

theorem find_pattern_no_false_positive_witness :
    (Absent (window [1, 2, 3, 1, 2, 1, 2, 3, 7, 1, 2, 3] 1 9) [1, 2, 3] →
      find_pattern [1, 2, 3, 1, 2, 1, 2, 3, 7, 1, 2, 3] 1 9 [1, 2, 3] 3 = .ok none) ∧
    (∀ p, find_pattern [1, 2, 3, 1, 2, 1, 2, 3, 7, 1, 2, 3] 1 9 [1, 2, 3] 3 = .ok (some p) →
      ∃ i, p = 1 + i ∧ i + 3 ≤ (window [1, 2, 3, 1, 2, 1, 2, 3, 7, 1, 2, 3] 1 9).length ∧
        ((window [1, 2, 3, 1, 2, 1, 2, 3, 7, 1, 2, 3] 1 9).drop i).take 3 = [1, 2, 3]) :=
  find_pattern_no_false_positive [1, 2, 3, 1, 2, 1, 2, 3, 7, 1, 2, 3] [1, 2, 3] 1 9 (by decide)

/-- C5. Degenerate inputs are "not found": when the buffer is empty
(`end_ ≤ begin`), the pattern is empty (`plen = 0`) or the pattern is longer than
the buffer (`end_ - begin < plen`), `find_pattern` returns `NULL` whatever the
memory holds, also on the empty memory, where any read of a buffer byte would be
a fault: no buffer byte is read. -/
theorem find_pattern_degenerate (mem pattern : List Byte) (begin : Nat) (end_ : Int)
    (plen : Nat) (hplen : plen = pattern.length)
    (h : end_ ≤ (begin : Int) ∨ plen = 0 ∨ end_ - (begin : Int) < (plen : Int)) :
    find_pattern mem begin end_ pattern plen = .ok none ∧
      find_pattern [] begin end_ pattern plen = .ok none := by
  have key : ∀ m : List Byte, find_pattern m begin end_ pattern plen = .ok none := by
    intro m
    by_cases hg : plen = 0 ∨ end_ ≤ (begin : Int)
    · simp only [find_pattern, hg, if_true, pure, Except.pure]
    · have hlt : (end_ - (begin : Int)).toNat < plen := by omega
      obtain ⟨t, ht, _, _⟩ := skip_fill_ok pattern (plen - 1) plen (by omega) (plen - 1)
        (le_refl _) (by omega)
      have hnle : ¬ plen ≤ (end_ - (begin : Int)).toNat := by omega
      simp only [find_pattern, hg, if_false, ht, bind, Except.bind, search, hnle, pure,
        Except.pure]
  exact ⟨key mem, key []⟩

theorem find_pattern_degenerate_witness :
    find_pattern [1, 2] 0 2 [1, 2, 3] 3 = .ok none ∧
      find_pattern [] 0 2 [1, 2, 3] 3 = .ok none :=
  find_pattern_degenerate [1, 2] [1, 2, 3] 0 2 3 (by decide) (by decide)

/-! ## Multi-byte reads -/

theorem load_u32_ok (B : List Byte) (i : Nat) (h : i + 4 ≤ B.length) :
    load_u32 B i = .ok ((B[i]).val + 2 ^ 8 * (B[i + 1]).val + 2 ^ 16 * (B[i + 2]).val +
      2 ^ 24 * (B[i + 3]).val) := by
  have h0 : i < B.length := by omega
  have h1 : i + 1 < B.length := by omega
  have h2 : i + 2 < B.length := by omega
  have h3 : i + 3 < B.length := by omega
  simp only [load_u32, load_ok h0, load_ok h1, load_ok h2, load_ok h3, bind, Except.bind,
    pure, Except.pure]

theorem load_u32_oob (B : List Byte) (i : Nat) (h : B.length < i + 4) :
    load_u32 B i = .error (.outOfBounds (max i B.length)) := by
  by_cases h0 : i < B.length
  · by_cases h1 : i + 1 < B.length
    · by_cases h2 : i + 2 < B.length
      · have h3 : B.length = i + 3 := by omega
        have hmax : max i B.length = i + 3 := by omega
        simp only [load_u32, load_ok h0, load_ok h1, load_ok h2, load_oob (le_of_eq h3),
          bind, Except.bind, hmax]
      · have h3 : B.length = i + 2 := by omega
        have hmax : max i B.length = i + 2 := by omega
        simp only [load_u32, load_ok h0, load_ok h1, load_oob (le_of_eq h3), bind,
          Except.bind, hmax]
    · have h3 : B.length = i + 1 := by omega
      have hmax : max i B.length = i + 1 := by omega
      simp only [load_u32, load_ok h0, load_oob (le_of_eq h3), bind, Except.bind, hmax]
  · have h3 : B.length ≤ i := by omega
    have hmax : max i B.length = i := by omega
    simp only [load_u32, load_oob h3, bind, Except.bind, hmax]

theorem load_bytes_ok (B : List Byte) (n : Nat) :
    ∀ off, off + n ≤ B.length → load_bytes B off n = .ok ((B.drop off).take n) := by
  induction n with
  | zero =>
    intro off _
    simp [load_bytes]
  | succ k ih =>
    intro off h
    have h0 : off < B.length := by omega
    have hrec := ih (off + 1) (by omega)
    simp only [load_bytes, load_ok h0, hrec, bind, Except.bind, pure, Except.pure]
    rw [List.drop_eq_getElem_cons h0, List.take_succ_cons]

theorem load_congr (B B' : List Byte) (i : Nat) (h : B[i]? = B'[i]?) :
    load B i = load B' i := by
  simp only [load, h]

theorem load_u32_congr (B B' : List Byte) (i : Nat)
    (h : ∀ k, k < 4 → B[i + k]? = B'[i + k]?) : load_u32 B i = load_u32 B' i := by
  have h0 := load_congr B B' i (h 0 (by omega))
  have h1 := load_congr B B' (i + 1) (h 1 (by omega))
  have h2 := load_congr B B' (i + 2) (h 2 (by omega))
  have h3 := load_congr B B' (i + 3) (h 3 (by omega))
  simp only [load_u32, h0, h1, h2, h3]

/-! ## The search performed by `main` -/

theorem signature_ne_nil : IFLASH_BIOSIMG_SIGNATURE ≠ [] := by decide

theorem absent_of_bounded (buf pattern : List Byte) (hp : pattern ≠ [])
    (h : ∀ i, i < buf.length → ¬ OccursAt buf pattern i) : Absent buf pattern := by
  intro i hocc
  have hb := occursAt_bound hocc hp
  have hpos : 0 < pattern.length := List.length_pos.mpr hp
  exact h i (by omega) hocc

theorem occursAt_take_iff (buf pattern : List Byte) (m i : Nat) (hp : pattern ≠ []) :
    OccursAt (buf.take m) pattern i ↔ i + pattern.length ≤ m ∧ OccursAt buf pattern i := by
  have hw : window buf 0 (((0 : Nat) : Int) + (m : Int)) = buf.take m := by
    have hm : (((0 : Nat) : Int) + (m : Int) - ((0 : Nat) : Int)).toNat = m := by omega
    unfold window
    rw [hm, List.drop_zero]
  have h1 := occursAt_window_iff buf pattern 0 m i hp
  rw [hw, Nat.zero_add] at h1
  rw [h1, occursAt_iff]
  rfl

/-- The search of `main`: no fault; the result is the leftmost occurrence of the
signature among those that end before the last byte of the file. -/
theorem main_search_spec (B : List Byte) :
    ∃ r, main_search B = .ok r ∧
      match r with
      | none => ∀ i, i + 16 < B.length → ¬ OccursAt B IFLASH_BIOSIMG_SIGNATURE i
      | some p => p + 16 < B.length ∧ OccursAt B IFLASH_BIOSIMG_SIGNATURE p ∧
          ∀ j, j < p → ¬ OccursAt B IFLASH_BIOSIMG_SIGNATURE j := by
  have hlen : IFLASH_BIOSIMG_SIGNATURE.length = 16 := rfl
  have hw : window B 0 ((0 : Int) + (B.length : Int) - 1) = B.take (B.length - 1) := by
    have hm : ((0 : Int) + (B.length : Int) - 1 - ((0 : Nat) : Int)).toNat = B.length - 1 := by
      omega
    unfold window
    rw [hm, List.drop_zero]
  obtain ⟨r, hr, hspec⟩ := find_pattern_window B IFLASH_BIOSIMG_SIGNATURE 0
    ((0 : Int) + (B.length : Int) - 1) (by omega)
  rw [hw] at hspec
  refine ⟨r, hr, ?_⟩
  cases r with
  | none =>
    intro i hi hocc
    refine hspec signature_ne_nil i ?_
    rw [occursAt_take_iff _ _ _ _ signature_ne_nil]
    exact ⟨by omega, hocc⟩
  | some p =>
    obtain ⟨i, hi, hocc, hfirst⟩ := hspec
    have hpi : p = i := by omega
    subst hpi
    rw [occursAt_take_iff _ _ _ _ signature_ne_nil] at hocc
    refine ⟨by omega, hocc.2, ?_⟩
    intro j hj hoccj
    refine hfirst j hj ?_
    rw [occursAt_take_iff _ _ _ _ signature_ne_nil]
    have hb := occursAt_bound hoccj signature_ne_nil
    exact ⟨by omega, hoccj⟩

theorem main_search_leftmost (B : List Byte) (i : Nat) (hlt : i + 16 < B.length)
    (hocc : OccursAt B IFLASH_BIOSIMG_SIGNATURE i)
    (hfirst : ∀ j, j < i → ¬ OccursAt B IFLASH_BIOSIMG_SIGNATURE j) :
    main_search B = .ok (some i) := by
  obtain ⟨r, hr, hspec⟩ := main_search_spec B
  rw [hr]
  cases r with
  | none => exact absurd hocc (hspec i hlt)
  | some p =>
    obtain ⟨_, hoccp, hfirstp⟩ := hspec
    have h1 : ¬ i < p := fun h => hfirstp i h hocc
    have h2 : ¬ p < i := fun h => hfirst p h hoccp
    have h3 : p = i := by omega
    rw [h3]

theorem main_search_absent (B : List Byte) (habs : Absent B IFLASH_BIOSIMG_SIGNATURE) :
    main_search B = .ok none := by
  obtain ⟨r, hr, hspec⟩ := main_search_spec B
  rw [hr]
  cases r with
  | none => rfl
  | some p => exact absurd hspec.2.1 (habs p)

/-! ## The steps of `main` composed -/

theorem main_of_not_found (w : World) (B : List Byte) (hargc : 3 ≤ w.argc)
    (hin : w.in_file = some B) (hmalloc : w.malloc_ok = true) (hfread : w.fread_ok = true)
    (hs : main_search B = .ok none) : main w = .ok ⟨ERR_NOT_FOUND, none⟩ := by
  have h3 : ¬ w.argc < 3 := by omega
  simp [main, h3, hin, hmalloc, hfread, hs, bind, Except.bind, pure, Except.pure]

theorem main_of_found (w : World) (B : List Byte) (m start len : Nat) (hargc : 3 ≤ w.argc)
    (hin : w.in_file = some B) (hmalloc : w.malloc_ok = true) (hfread : w.fread_ok = true)
    (hs : main_search B = .ok (some m)) (hr : main_range B m = .ok (start, len)) :
    main w = main_write w B start len := by
  have h3 : ¬ w.argc < 3 := by omega
  simp [main, h3, hin, hmalloc, hfread, hs, hr, bind, Except.bind]

theorem main_of_range_fault (w : World) (B : List Byte) (m : Nat) (e : Fault)
    (hargc : 3 ≤ w.argc) (hin : w.in_file = some B) (hmalloc : w.malloc_ok = true)
    (hfread : w.fread_ok = true) (hs : main_search B = .ok (some m))
    (hr : main_range B m = .error e) : main w = .error e := by
  have h3 : ¬ w.argc < 3 := by omega
  simp [main, h3, hin, hmalloc, hfread, hs, hr, bind, Except.bind]

theorem main_write_ok (w : World) (B data : List Byte) (start len : Nat)
    (hout : w.out_file_ok = true) (hfw : w.fwrite_short = none)
    (hd : load_bytes B start len = .ok data) (hlen : data.length = len) :
    main_write w B start len = .ok ⟨ERR_SUCCESS, some data⟩ := by
  simp [main_write, hout, hfw, hd, hlen, bind, Except.bind, pure, Except.pure]

theorem main_write_fault (w : World) (B : List Byte) (start len : Nat) (e : Fault)
    (hout : w.out_file_ok = true) (hd : load_bytes B start len = .error e) :
    main_write w B start len = .error e := by
  simp [main_write, hout, hd, bind, Except.bind]

theorem main_range_ok (B : List Byte) (m : Nat) (h : m + 24 ≤ B.length) :
    main_range B m = .ok (m + 24, (B[m + 20]).val + 2 ^ 8 * (B[m + 21]).val +
      2 ^ 16 * (B[m + 22]).val + 2 ^ 24 * (B[m + 23]).val) := by
  have h4 : m + 20 + 4 ≤ B.length := by omega
  simp only [main_range, offsetof_UsedSize, sizeof_IFLASH_BIOSIMG_HEADER,
    load_u32_ok B (m + 20) h4, bind, Except.bind, pure, Except.pure]

theorem main_range_fault (B : List Byte) (m : Nat) (h : B.length < m + 24) :
    main_range B m = .error (.outOfBounds (max (m + 20) B.length)) := by
  have h4 : B.length < m + 20 + 4 := by omega
  simp only [main_range, offsetof_UsedSize, load_u32_oob B (m + 20) h4, bind, Except.bind]

theorem getElem_append_LE32 (a rest : List Byte) (U k : Nat) (hk : k < 4)
    (h : a.length + k < (a ++ (LE32 U ++ rest)).length) :
    ((a ++ (LE32 U ++ rest))[a.length + k]).val = U / 2 ^ (8 * k) % 256 := by
  rw [List.getElem_append_right (by omega)]
  have hk' : k = 0 ∨ k = 1 ∨ k = 2 ∨ k = 3 := by omega
  rcases hk' with rfl | rfl | rfl | rfl <;> simp [LE32, Fin.ofNat]

theorem load_u32_LE32 (a rest : List Byte) (U : Nat) (hU : U < 2 ^ 32) :
    load_u32 (a ++ (LE32 U ++ rest)) a.length = .ok U := by
  have hlen : (a ++ (LE32 U ++ rest)).length = a.length + 4 + rest.length := by
    simp [LE32]
    omega
  rw [load_u32_ok _ _ (by omega)]
  have e0 := getElem_append_LE32 a rest U 0 (by omega) (by omega)
  have e1 := getElem_append_LE32 a rest U 1 (by omega) (by omega)
  have e2 := getElem_append_LE32 a rest U 2 (by omega) (by omega)
  have e3 := getElem_append_LE32 a rest U 3 (by omega) (by omega)
  simp only [Nat.add_zero] at e0
  rw [e0, e1, e2, e3]
  congr 1
  omega

theorem main_range_LE32 (a rest : List Byte) (U m : Nat) (hU : U < 2 ^ 32)
    (ha : a.length = m + 20) : main_range (a ++ (LE32 U ++ rest)) m = .ok (m + 24, U) := by
  have h20 : m + offsetof_UsedSize = a.length := by
    rw [ha]
    rfl
  simp only [main_range, h20, load_u32_LE32 a rest U hU, bind, Except.bind, pure, Except.pure,
    sizeof_IFLASH_BIOSIMG_HEADER]

theorem load_bytes_append (a data rest : List Byte) (off : Nat) (ha : a.length = off) :
    load_bytes (a ++ (data ++ rest)) off data.length = .ok data := by
  rw [load_bytes_ok _ _ _ (by simp; omega), List.drop_left' ha, List.take_left' rfl]

/-! ## Properties of `main` -/

/-- C3. Extraction round trip: when the file is
`pre ++ SIG ++ F ++ LE32 U ++ payload ++ post` with `F` of 4 bytes, `U < 2^32`,
`payload` of exactly `U` bytes and no occurrence of the signature before
`|pre|`, and every library call succeeds, the search of `main` finds offset
`|pre|`, the derived range is `(|pre| + 24, U)` and the program exits with
`ERR_SUCCESS` having written exactly `payload`. -/
theorem main_extraction_round_trip (w : World) (pre F payload post : List Byte) (U : Nat)
    (hargc : 3 ≤ w.argc)
    (hin : w.in_file =
      some (pre ++ IFLASH_BIOSIMG_SIGNATURE ++ F ++ LE32 U ++ payload ++ post))
    (hmalloc : w.malloc_ok = true) (hfread : w.fread_ok = true)
    (hout : w.out_file_ok = true) (hfw : w.fwrite_short = none)
    (hF : F.length = 4) (hU : U < 2 ^ 32) (hpay : payload.length = U)
    (hfirst : ∀ j, j < pre.length →
      ¬ OccursAt (pre ++ IFLASH_BIOSIMG_SIGNATURE ++ F ++ LE32 U ++ payload ++ post)
        IFLASH_BIOSIMG_SIGNATURE j) :
    main_search (pre ++ IFLASH_BIOSIMG_SIGNATURE ++ F ++ LE32 U ++ payload ++ post) =
        .ok (some pre.length) ∧
      main_range (pre ++ IFLASH_BIOSIMG_SIGNATURE ++ F ++ LE32 U ++ payload ++ post)
        pre.length = .ok (pre.length + 24, U) ∧
      main w = .ok ⟨ERR_SUCCESS, some payload⟩ := by
  have hsig : IFLASH_BIOSIMG_SIGNATURE.length = 16 := rfl
  have hle : (LE32 U).length = 4 := rfl
  have hlen : (pre ++ IFLASH_BIOSIMG_SIGNATURE ++ F ++ LE32 U ++ payload ++ post).length =
      pre.length + 16 + 4 + 4 + U + post.length := by
    simp only [List.length_append, hsig, hF, hle, hpay]
  have hB1 : pre ++ IFLASH_BIOSIMG_SIGNATURE ++ F ++ LE32 U ++ payload ++ post =
      pre ++ (IFLASH_BIOSIMG_SIGNATURE ++ (F ++ LE32 U ++ payload ++ post)) := by
    simp only [List.append_assoc]
  have hB2 : pre ++ IFLASH_BIOSIMG_SIGNATURE ++ F ++ LE32 U ++ payload ++ post =
      (pre ++ IFLASH_BIOSIMG_SIGNATURE ++ F) ++ (LE32 U ++ (payload ++ post)) := by
    simp only [List.append_assoc]
  have hB3 : pre ++ IFLASH_BIOSIMG_SIGNATURE ++ F ++ LE32 U ++ payload ++ post =
      (pre ++ IFLASH_BIOSIMG_SIGNATURE ++ F ++ LE32 U) ++ (payload ++ post) := by
    simp only [List.append_assoc]
  have hocc : OccursAt (pre ++ IFLASH_BIOSIMG_SIGNATURE ++ F ++ LE32 U ++ payload ++ post)
      IFLASH_BIOSIMG_SIGNATURE pre.length := by
    unfold OccursAt
    rw [hB1, List.drop_left' rfl, List.take_left' rfl]
  have hs := main_search_leftmost _ pre.length (by omega) hocc hfirst
  have hr : main_range (pre ++ IFLASH_BIOSIMG_SIGNATURE ++ F ++ LE32 U ++ payload ++ post)
      pre.length = .ok (pre.length + 24, U) := by
    rw [hB2]
    exact main_range_LE32 _ _ U pre.length hU
      (by simp only [List.length_append, hsig, hF])
  have hd : load_bytes (pre ++ IFLASH_BIOSIMG_SIGNATURE ++ F ++ LE32 U ++ payload ++ post)
      (pre.length + 24) U = .ok payload := by
    have h := load_bytes_append (pre ++ IFLASH_BIOSIMG_SIGNATURE ++ F ++ LE32 U) payload post
      (pre.length + 24) (by simp only [List.length_append, hsig, hF, hle])
    rw [hpay] at h
    rw [hB3]
    exact h
  refine ⟨hs, hr, ?_⟩
  rw [main_of_found w _ pre.length (pre.length + 24) U hargc hin hmalloc hfread hs hr]
  exact main_write_ok w _ payload _ _ hout hfw hd hpay

theorem main_extraction_round_trip_witness :
    main_search (IFLASH_BIOSIMG_SIGNATURE ++ [100, 0, 0, 0, 4, 0, 0, 0, 0xDE, 0xAD, 0xBE, 0xEF]) =
        .ok (some 0) ∧
      main_range (IFLASH_BIOSIMG_SIGNATURE ++ [100, 0, 0, 0, 4, 0, 0, 0, 0xDE, 0xAD, 0xBE, 0xEF])
        0 = .ok (24, 4) ∧
      main (World.loaded
        (IFLASH_BIOSIMG_SIGNATURE ++ [100, 0, 0, 0, 4, 0, 0, 0, 0xDE, 0xAD, 0xBE, 0xEF])) =
        .ok ⟨0, some [0xDE, 0xAD, 0xBE, 0xEF]⟩ :=
  main_extraction_round_trip
    (World.loaded
      (IFLASH_BIOSIMG_SIGNATURE ++ [100, 0, 0, 0, 4, 0, 0, 0, 0xDE, 0xAD, 0xBE, 0xEF]))
    [] [100, 0, 0, 0] [0xDE, 0xAD, 0xBE, 0xEF] [] 4 (by decide) rfl rfl rfl rfl rfl rfl
    (by decide) rfl (by decide)

/-- C4. Header interpretation: for every buffer `B` and match offset `m` with
`m + 24 ≤ |B|`, the derived payload range starts at `m + 24` (the header is 24
bytes: 16 + 4 + 4) and its length is the unsigned 32-bit little-endian value of
the bytes `m + 20 .. m + 23`. -/
theorem main_range_header (B : List Byte) (m : Nat) (h : m + 24 ≤ B.length) :
    main_range B m = .ok (m + 24, (B[m + 20]).val + 2 ^ 8 * (B[m + 21]).val +
      2 ^ 16 * (B[m + 22]).val + 2 ^ 24 * (B[m + 23]).val) ∧
    (B[m + 20]).val + 2 ^ 8 * (B[m + 21]).val + 2 ^ 16 * (B[m + 22]).val +
      2 ^ 24 * (B[m + 23]).val < 2 ^ 32 ∧
    sizeof_IFLASH_BIOSIMG_HEADER = 24 := by
  refine ⟨main_range_ok B m h, ?_, rfl⟩
  have h0 := (B[m + 20]).isLt
  have h1 := (B[m + 21]).isLt
  have h2 := (B[m + 22]).isLt
  have h3 := (B[m + 23]).isLt
  omega

theorem main_range_header_witness :
    main_range ([7, 7, 7] ++ IFLASH_BIOSIMG_SIGNATURE ++ [100, 0, 0, 0, 4, 3, 2, 1, 9]) 3 =
      .ok (27, 4 + 2 ^ 8 * 3 + 2 ^ 16 * 2 + 2 ^ 24 * 1) :=
  (main_range_header ([7, 7, 7] ++ IFLASH_BIOSIMG_SIGNATURE ++ [100, 0, 0, 0, 4, 3, 2, 1, 9]) 3
    (by decide)).1

/-- C6, as the code behaves: when the leftmost occurrence of the signature in
the file `B` starts at the last valid position `|B| - 16`, the search that
`main` performs returns `NULL`, and a run that loaded `B` exits with
`ERR_NOT_FOUND` without output.  `main` passes `in_buffer + filesize - 1` as the
exclusive end, so the last byte of the file is outside the searched buffer. -/
theorem main_search_misses_last_position (w : World) (B : List Byte) (hargc : 3 ≤ w.argc)
    (hin : w.in_file = some B) (hmalloc : w.malloc_ok = true) (hfread : w.fread_ok = true)
    (hlen : 16 ≤ B.length) (_hocc : OccursAt B IFLASH_BIOSIMG_SIGNATURE (B.length - 16))
    (hfirst : ∀ j, j < B.length - 16 → ¬ OccursAt B IFLASH_BIOSIMG_SIGNATURE j) :
    main_search B = .ok none ∧ main w = .ok ⟨ERR_NOT_FOUND, none⟩ := by
  have hs : main_search B = .ok none := by
    obtain ⟨r, hr, hspec⟩ := main_search_spec B
    rw [hr]
    cases r with
    | none => rfl
    | some p =>
      obtain ⟨hp, hoccp, _⟩ := hspec
      exact absurd hoccp (hfirst p (by omega))
  exact ⟨hs, main_of_not_found w B hargc hin hmalloc hfread hs⟩

theorem main_search_misses_last_position_witness :
    OccursAt IFLASH_BIOSIMG_SIGNATURE IFLASH_BIOSIMG_SIGNATURE 0 ∧
      main_search IFLASH_BIOSIMG_SIGNATURE = .ok none ∧
      main (World.loaded IFLASH_BIOSIMG_SIGNATURE) = .ok ⟨1, none⟩ :=
  ⟨by decide, main_search_misses_last_position (World.loaded IFLASH_BIOSIMG_SIGNATURE)
    IFLASH_BIOSIMG_SIGNATURE (by decide) rfl rfl rfl (by decide) (by decide) (by decide)⟩

/-- C7. Signature absent: when the signature occurs nowhere in the loaded file
`B`, the program returns `ERR_NOT_FOUND` (1) and the output file is never opened
or written. -/
theorem main_signature_absent (w : World) (B : List Byte) (hargc : 3 ≤ w.argc)
    (hin : w.in_file = some B) (hmalloc : w.malloc_ok = true) (hfread : w.fread_ok = true)
    (habs : Absent B IFLASH_BIOSIMG_SIGNATURE) :
    main w = .ok ⟨ERR_NOT_FOUND, none⟩ ∧ ERR_NOT_FOUND = 1 :=
  ⟨main_of_not_found w B hargc hin hmalloc hfread (main_search_absent B habs), rfl⟩

theorem main_signature_absent_witness :
    main (World.loaded ([0x24, 0x5F, 0x49, 0x46] ++ IFLASH_BIOSIMG_SIGNATURE.take 15 ++
      [0x46, 0x47, 0, 0, 0, 0, 4, 0, 0, 0, 1, 2, 3, 4])) = .ok ⟨1, none⟩ :=
  (main_signature_absent
    (World.loaded ([0x24, 0x5F, 0x49, 0x46] ++ IFLASH_BIOSIMG_SIGNATURE.take 15 ++
      [0x46, 0x47, 0, 0, 0, 0, 4, 0, 0, 0, 1, 2, 3, 4]))
    ([0x24, 0x5F, 0x49, 0x46] ++ IFLASH_BIOSIMG_SIGNATURE.take 15 ++
      [0x46, 0x47, 0, 0, 0, 0, 4, 0, 0, 0, 1, 2, 3, 4])
    (by decide) rfl rfl rfl
    (absent_of_bounded _ _ signature_ne_nil (by decide))).1

/-- C8 fails on the code.  In the 22-byte file made of the signature, `FullSize`
and the first two bytes of `UsedSize`, the signature is found at `m = 0` and
`m + 24 > 22`.  Header interpretation makes no check: it reads `UsedSize`, and
the read reaches index 22, which is not inside the 22-byte buffer, where the
claim has no byte at an index `≥ |B|` read. -/
theorem main_range_truncated_counterexample :
    main_search (IFLASH_BIOSIMG_SIGNATURE ++ [100, 0, 0, 0, 4, 0]) = .ok (some 0) ∧
      (IFLASH_BIOSIMG_SIGNATURE ++ [100, 0, 0, 0, 4, 0]).length < 0 + 24 ∧
      main_range (IFLASH_BIOSIMG_SIGNATURE ++ [100, 0, 0, 0, 4, 0]) 0 =
        .error (.outOfBounds 22) ∧
      (IFLASH_BIOSIMG_SIGNATURE ++ [100, 0, 0, 0, 4, 0]).length ≤ 22 := by
  decide

/-- C8, amended.  Header interpretation has no truncation check: it looks at
nothing but the four positions `m + 20 .. m + 23` of the buffer, not at its
length.  When the signature was found at `m` (so that its 16 bytes are inside
the buffer) and `m + 24 > |B|`, the read of `UsedSize` reaches the index
`max (m + 20) |B|`, which is `≥ |B|` and `< m + 24`: a read outside the
buffer. -/
theorem main_range_truncated (B : List Byte) (m : Nat)
    (hs : main_search B = .ok (some m)) (h : B.length < m + 24) :
    m + 16 < B.length ∧
      main_range B m = .error (.outOfBounds (max (m + 20) B.length)) ∧
      B.length ≤ max (m + 20) B.length ∧ max (m + 20) B.length < m + 24 ∧
      ∀ B' : List Byte, (∀ k, k < 4 → B'[m + 20 + k]? = B[m + 20 + k]?) →
        main_range B' m = main_range B m := by
  have hfound : m + 16 < B.length := by
    obtain ⟨r, hr, hspec⟩ := main_search_spec B
    rw [hs] at hr
    injection hr with hr'
    subst hr'
    exact hspec.1
  refine ⟨hfound, main_range_fault B m h, by omega, by omega, ?_⟩
  intro B' hB'
  have hu : load_u32 B' (m + offsetof_UsedSize) = load_u32 B (m + offsetof_UsedSize) :=
    load_u32_congr B' B _ hB'
  simp only [main_range, hu]

theorem main_range_truncated_witness :
    16 < (IFLASH_BIOSIMG_SIGNATURE ++ [100, 0, 0, 0, 4, 0]).length ∧
      main_range (IFLASH_BIOSIMG_SIGNATURE ++ [100, 0, 0, 0, 4, 0]) 0 =
        .error (.outOfBounds 22) ∧
      (IFLASH_BIOSIMG_SIGNATURE ++ [100, 0, 0, 0, 4, 0]).length ≤ 22 ∧ 22 < 0 + 24 ∧
      ∀ B' : List Byte,
        (∀ k, k < 4 → B'[0 + 20 + k]? =
          (IFLASH_BIOSIMG_SIGNATURE ++ [100, 0, 0, 0, 4, 0])[0 + 20 + k]?) →
        main_range B' 0 = main_range (IFLASH_BIOSIMG_SIGNATURE ++ [100, 0, 0, 0, 4, 0]) 0 :=
  main_range_truncated (IFLASH_BIOSIMG_SIGNATURE ++ [100, 0, 0, 0, 4, 0]) 0 (by decide)
    (by decide)

/-- C10 fails on the code.  For the signature followed by the 10 bytes
`64 00 00 00 02 00 00 00 DE AD` (26 bytes in total) the search finds offset 0,
header interpretation yields the range `(24, 2)` and the program exits with
`ERR_SUCCESS` having written `DE AD`. -/
theorem main_ten_trailing_counterexample :
    main_search (IFLASH_BIOSIMG_SIGNATURE ++ [100, 0, 0, 0, 2, 0, 0, 0, 0xDE, 0xAD]) =
        .ok (some 0) ∧
      main_range (IFLASH_BIOSIMG_SIGNATURE ++ [100, 0, 0, 0, 2, 0, 0, 0, 0xDE, 0xAD]) 0 =
        .ok (24, 2) ∧
      main (World.loaded
        (IFLASH_BIOSIMG_SIGNATURE ++ [100, 0, 0, 0, 2, 0, 0, 0, 0xDE, 0xAD])) =
        .ok ⟨ERR_SUCCESS, some [0xDE, 0xAD]⟩ := by
  decide

/-- C10, amended.  For a buffer made of the signature followed by exactly 10
further bytes `t`, the search of `main` finds offset 0 and header interpretation
yields a payload range: start 24, length the little-endian value of the bytes
20 .. 23 of the buffer (the 24-byte header fits in the 26 bytes). -/
theorem main_ten_trailing (t : List Byte) (ht : t.length = 10) :
    main_search (IFLASH_BIOSIMG_SIGNATURE ++ t) = .ok (some 0) ∧
      ∃ U, U < 2 ^ 32 ∧ main_range (IFLASH_BIOSIMG_SIGNATURE ++ t) 0 = .ok (24, U) ∧
        load_u32 t 4 = .ok U := by
  have hsig : IFLASH_BIOSIMG_SIGNATURE.length = 16 := rfl
  have hlen : (IFLASH_BIOSIMG_SIGNATURE ++ t).length = 26 := by
    rw [List.length_append, hsig, ht]
  have hocc : OccursAt (IFLASH_BIOSIMG_SIGNATURE ++ t) IFLASH_BIOSIMG_SIGNATURE 0 := by
    unfold OccursAt
    rw [List.drop_zero, List.take_left' rfl]
  have hs := main_search_leftmost (IFLASH_BIOSIMG_SIGNATURE ++ t) 0 (by omega) hocc
    (fun j hj => absurd hj (Nat.not_lt_zero j))
  refine ⟨hs, (t[4]).val + 2 ^ 8 * (t[5]).val + 2 ^ 16 * (t[6]).val + 2 ^ 24 * (t[7]).val,
    ?_, ?_, ?_⟩
  · have h0 := (t[4]).isLt
    have h1 := (t[5]).isLt
    have h2 := (t[6]).isLt
    have h3 := (t[7]).isLt
    omega
  · have hr := main_range_ok (IFLASH_BIOSIMG_SIGNATURE ++ t) 0 (by omega)
    rw [hr]
    simp [List.getElem_append_right, hsig]
  · exact load_u32_ok t 4 (by omega)

theorem main_ten_trailing_witness :
    main_search (IFLASH_BIOSIMG_SIGNATURE ++ [0, 0, 0, 0, 1, 1, 0, 0, 9, 9]) = .ok (some 0) ∧
      ∃ U, U < 2 ^ 32 ∧
        main_range (IFLASH_BIOSIMG_SIGNATURE ++ [0, 0, 0, 0, 1, 1, 0, 0, 9, 9]) 0 = .ok (24, U) ∧
        load_u32 [0, 0, 0, 0, 1, 1, 0, 0, 9, 9] 4 = .ok U :=
  main_ten_trailing [0, 0, 0, 0, 1, 1, 0, 0, 9, 9] rfl

/-! ## The contents of the skip table -/

theorem skip_fill_exact (pattern : List Byte) (last plen : Nat) (k : Nat) (hk : k ≤ last)
    (hp : k ≤ pattern.length) :
    ∃ t, skip_fill pattern last (skip_init plen) k = .ok t ∧
      (∀ b, (∀ j, j < k → pattern[j]? ≠ some b) → t b = plen) ∧
      (∀ b j, j < k → pattern[j]? = some b →
        (∀ i, j < i → i < k → pattern[i]? ≠ some b) → t b = last - j) := by
  induction k with
  | zero =>
    refine ⟨skip_init plen, rfl, ?_, ?_⟩
    · intro b _
      rfl
    · intro b j hj
      omega
  | succ n ih =>
    obtain ⟨t, ht, h1, h2⟩ := ih (by omega) (by omega)
    have hn : n < pattern.length := by omega
    have hget : pattern[n]? = some (pattern[n]) := List.getElem?_eq_getElem hn
    refine ⟨fun b => if b = pattern[n] then last - n else t b, ?_, ?_, ?_⟩
    · simp only [skip_fill, ht, load_ok hn, bind, Except.bind, pure, Except.pure]
    · intro b hb
      have hne : b ≠ pattern[n] := by
        intro h
        exact hb n (by omega) (by rw [hget, h])
      simp only [hne, if_false]
      exact h1 b (fun j hj => hb j (by omega))
    · intro b j hj hjb hlater
      by_cases hjn : j = n
      · subst hjn
        rw [hget] at hjb
        have hb : b = pattern[j] := (Option.some.inj hjb).symm
        simp only [hb, if_true]
      · have hne : b ≠ pattern[n] := by
          intro h
          exact hlater n (by omega) (by omega) (by rw [hget, h])
        simp only [hne, if_false]
        exact h2 b j (by omega) hjb (fun i hi1 hi2 => hlater i hi1 (by omega))

theorem find_pattern_eq_search (mem pattern : List Byte) (begin : Nat) (end_ : Int)
    (t : SkipTable) (hp : pattern ≠ []) (hbe : (begin : Int) < end_)
    (ht : skip_fill pattern (pattern.length - 1) (skip_init pattern.length)
      (pattern.length - 1) = .ok t) :
    find_pattern mem begin end_ pattern pattern.length =
      search mem pattern pattern.length t ((end_ - (begin : Int)).toNat + 1) begin
        (end_ - (begin : Int)).toNat := by
  have hpos : 0 < pattern.length := List.length_pos.mpr hp
  have hguard : ¬ (pattern.length = 0 ∨ end_ ≤ (begin : Int)) := by omega
  simp only [find_pattern, hguard, if_false, ht, bind, Except.bind]

/-- C11. Skip table contents: for a non-empty pattern of length `plen`, table
construction succeeds and leaves, for every byte value `b`,
`bad_char_skip[b] = plen` when `b` does not occur among `P[0 .. plen - 2]`, and
`bad_char_skip[b] = plen - 1 - j` when `j` is the largest index `< plen - 1`
with `P[j] = b`; this table is the one the search loop of `find_pattern` runs
with. -/
theorem skip_table_contents (pattern : List Byte) (hp : pattern ≠ []) :
    ∃ t, skip_fill pattern (pattern.length - 1) (skip_init pattern.length)
        (pattern.length - 1) = .ok t ∧
      (∀ b : Byte,
        ((∀ j, j < pattern.length - 1 → pattern[j]? ≠ some b) → t b = pattern.length) ∧
        (∀ j, j < pattern.length - 1 → pattern[j]? = some b →
          (∀ i, j < i → i < pattern.length - 1 → pattern[i]? ≠ some b) →
          t b = pattern.length - 1 - j)) ∧
      ∀ (mem : List Byte) (begin : Nat) (end_ : Int), (begin : Int) < end_ →
        find_pattern mem begin end_ pattern pattern.length =
          search mem pattern pattern.length t ((end_ - (begin : Int)).toNat + 1) begin
            (end_ - (begin : Int)).toNat := by
  obtain ⟨t, ht, h1, h2⟩ := skip_fill_exact pattern (pattern.length - 1) pattern.length
    (pattern.length - 1) (le_refl _) (by omega)
  exact ⟨t, ht, fun b => ⟨h1 b, fun j hj hjb hl => h2 b j hj hjb hl⟩,
    fun mem begin end_ hbe => find_pattern_eq_search mem pattern begin end_ t hp hbe ht⟩

theorem skip_table_contents_witness :
    ∃ t, skip_fill [1, 2, 1, 3, 1] 4 (skip_init 5) 4 = .ok t ∧
      (∀ b : Byte,
        ((∀ j, j < 4 → ([1, 2, 1, 3, 1] : List Byte)[j]? ≠ some b) → t b = 5) ∧
        (∀ j, j < 4 → ([1, 2, 1, 3, 1] : List Byte)[j]? = some b →
          (∀ i, j < i → i < 4 → ([1, 2, 1, 3, 1] : List Byte)[i]? ≠ some b) →
          t b = 4 - j)) ∧
      ∀ (mem : List Byte) (begin : Nat) (end_ : Int), (begin : Int) < end_ →
        find_pattern mem begin end_ [1, 2, 1, 3, 1] 5 =
          search mem [1, 2, 1, 3, 1] 5 t ((end_ - (begin : Int)).toNat + 1) begin
            (end_ - (begin : Int)).toNat :=
  skip_table_contents [1, 2, 1, 3, 1] (by decide)

/-! ## The shift -/

theorem search_state_invariant (B pattern : List Byte) (t : SkipTable)
    (hpos : 0 < pattern.length) (hb : ∀ c, 1 ≤ t c ∧ t c ≤ pattern.length)
    (hs : ∀ j c, j < pattern.length - 1 → pattern[j]? = some c →
      t c ≤ pattern.length - 1 - j) (p' s' : Nat) :
    ∀ k b s, b + s ≤ B.length →
      search_state B pattern pattern.length t k b s = .ok (some (p', s')) →
      (∀ q, q < b → ¬ OccursAt B pattern q) →
      (∀ q, q < p' → ¬ OccursAt B pattern q) ∧ p' + s' = b + s ∧
        ∀ fuel, search B pattern pattern.length t (fuel + k) b s =
          search B pattern pattern.length t fuel p' s' := by
  intro k
  induction k with
  | zero =>
    intro b s _ hst hinv
    simp only [search_state, pure, Except.pure] at hst
    injection hst with h1
    injection h1 with h2
    injection h2 with h3 h4
    subst h3
    subst h4
    exact ⟨hinv, rfl, fun fuel => rfl⟩
  | succ n ih =>
    intro b s hmem hst hinv
    by_cases hle : pattern.length ≤ s
    · have hlast : b + (pattern.length - 1) < B.length := by omega
      obtain ⟨r0, hr0, hspec0⟩ :=
        match_back_ok B pattern b (pattern.length - 1) hlast (by omega)
      cases r0 with
      | true =>
        simp [search_state, hle, hr0, bind, Except.bind, pure, Except.pure] at hst
      | false =>
        have hbound := hb (B[b + (pattern.length - 1)])
        have hsub : size_sub s (t (B[b + (pattern.length - 1)])) =
            s - t (B[b + (pattern.length - 1)]) := by
          unfold size_sub
          rw [if_pos (by omega)]
        have hne : ¬ OccursAt B pattern b := by
          intro hocc
          have : false = true :=
            hspec0.mpr (fun k hk => (occursAt_iff B pattern b).mp hocc k (by omega))
          exact absurd this (by simp)
        have hc : B[b + (pattern.length - 1)]? = some (B[b + (pattern.length - 1)]) :=
          List.getElem?_eq_getElem hlast
        have hinv' : ∀ q, q < b + t (B[b + (pattern.length - 1)]) →
            ¬ OccursAt B pattern q := by
          intro q hq
          by_cases h1 : q < b
          · exact hinv q h1
          · by_cases h2 : q = b
            · rw [h2]
              exact hne
            · intro hocc
              have hq' : q = b + (q - b) := by omega
              have hm : MatchAt B pattern (b + (q - b)) := by
                rw [← hq']
                exact (occursAt_iff B pattern q).mp hocc
              exact shift_safe B pattern t hs b (q - b) (B[b + (pattern.length - 1)]) hc
                (by omega) (by omega) (by omega) hm
        have hst' : search_state B pattern pattern.length t n
            (b + t (B[b + (pattern.length - 1)])) (s - t (B[b + (pattern.length - 1)])) =
            .ok (some (p', s')) := by
          simp only [search_state, hle, if_true, hr0, bind, Except.bind, load_ok hlast,
            hsub] at hst
          exact hst
        obtain ⟨h1, h2, h3⟩ := ih _ _ (by omega) hst' hinv'
        refine ⟨h1, by omega, ?_⟩
        intro fuel
        rw [← h3 fuel]
        show search B pattern pattern.length t (fuel + n + 1) b s = _
        simp only [search, hle, if_true, hr0, bind, Except.bind, load_ok hlast, hsub]
        rfl
    · simp [search_state, hle, pure, Except.pure] at hst

/-- C12. A shift never skips a match: for a buffer `B`, a non-empty pattern and
a window start `p` with `p + plen ≤ |B|` whose window differs from the pattern,
let `s = bad_char_skip[B[p + plen - 1]]`.  The pattern occurs at no start `q`
with `p < q < p + s`; so if it occurs nowhere before `p` it occurs nowhere
before `p + s`; and `p + s`, with the remaining length reduced by `s`, is the
state in which the loop of `find_pattern` goes on.  Hence in every state
`(p', slen')` the loop reaches from the start of the buffer, after any number
`k` of shifts, the pattern occurs nowhere before `p'`. -/
theorem shift_never_skips (B pattern : List Byte) (p : Nat) (hp : pattern ≠ [])
    (hwin : p + pattern.length ≤ B.length) (hne : ¬ OccursAt B pattern p) :
    ∃ t c, skip_fill pattern (pattern.length - 1) (skip_init pattern.length)
        (pattern.length - 1) = .ok t ∧
      B[p + (pattern.length - 1)]? = some c ∧
      (∀ q, p < q → q < p + t c → ¬ OccursAt B pattern q) ∧
      ((∀ q, q < p → ¬ OccursAt B pattern q) →
        ∀ q, q < p + t c → ¬ OccursAt B pattern q) ∧
      (∀ fuel slen, pattern.length ≤ slen →
        search B pattern pattern.length t (fuel + 1) p slen =
          search B pattern pattern.length t fuel (p + t c) (slen - t c)) ∧
      ∀ k p' slen',
        search_state B pattern pattern.length t k 0 B.length = .ok (some (p', slen')) →
        (∀ q, q < p' → ¬ OccursAt B pattern q) ∧
          ∀ fuel, search B pattern pattern.length t (fuel + k) 0 B.length =
            search B pattern pattern.length t fuel p' slen' := by
  have hpos : 0 < pattern.length := List.length_pos.mpr hp
  obtain ⟨t, ht, hb, hs⟩ := skip_fill_ok pattern (pattern.length - 1) pattern.length
    (by omega) (pattern.length - 1) (le_refl _) (by omega)
  have hlast : p + (pattern.length - 1) < B.length := by omega
  have hc : B[p + (pattern.length - 1)]? = some (B[p + (pattern.length - 1)]) :=
    List.getElem?_eq_getElem hlast
  have hsafe : ∀ q, p < q → q < p + t (B[p + (pattern.length - 1)]) →
      ¬ OccursAt B pattern q := by
    intro q hq1 hq2 hocc
    have hq : q = p + (q - p) := by omega
    have hbound := hb (B[p + (pattern.length - 1)])
    have hm : MatchAt B pattern (p + (q - p)) := by
      rw [← hq]
      exact (occursAt_iff B pattern q).mp hocc
    exact shift_safe B pattern t (fun j c hj hjc => hs j c hj hjc) p (q - p)
      (B[p + (pattern.length - 1)]) hc (by omega) (by omega) (by omega) hm
  refine ⟨t, B[p + (pattern.length - 1)], ht, hc, hsafe, ?_, ?_, ?_⟩
  · intro hbefore q hq
    by_cases h1 : q < p
    · exact hbefore q h1
    · by_cases h2 : q = p
      · rw [h2]
        exact hne
      · exact hsafe q (by omega) hq
  · intro fuel slen hslen
    obtain ⟨r0, hr0, hspec0⟩ :=
      match_back_ok B pattern p (pattern.length - 1) hlast (by omega)
    have hfalse : r0 = false := by
      cases r0 with
      | false => rfl
      | true =>
        exfalso
        apply hne
        rw [occursAt_iff]
        intro k hk
        exact hspec0.mp rfl k (by omega)
    subst hfalse
    have hbound := hb (B[p + (pattern.length - 1)])
    have hsub : size_sub slen (t (B[p + (pattern.length - 1)])) =
        slen - t (B[p + (pattern.length - 1)]) := by
      unfold size_sub
      rw [if_pos (by omega)]
    simp only [search, hslen, if_true, hr0, bind, Except.bind, load_ok hlast, hsub]
    rfl
  · intro k p' slen' hst
    obtain ⟨h1, _, h3⟩ := search_state_invariant B pattern t hpos hb
      (fun j c hj hjc => hs j c hj hjc) p' slen' k 0 B.length (by omega) hst
      (fun q hq => absurd hq (Nat.not_lt_zero q))
    exact ⟨h1, h3⟩

theorem shift_never_skips_witness :
    ∃ t c, skip_fill [1, 2, 3] 2 (skip_init 3) 2 = .ok t ∧
      ([1, 2, 1, 2, 3, 1, 2, 3] : List Byte)[0 + 2]? = some c ∧
      (∀ q, 0 < q → q < 0 + t c → ¬ OccursAt [1, 2, 1, 2, 3, 1, 2, 3] [1, 2, 3] q) ∧
      ((∀ q, q < 0 → ¬ OccursAt [1, 2, 1, 2, 3, 1, 2, 3] [1, 2, 3] q) →
        ∀ q, q < 0 + t c → ¬ OccursAt [1, 2, 1, 2, 3, 1, 2, 3] [1, 2, 3] q) ∧
      (∀ fuel slen, 3 ≤ slen →
        search [1, 2, 1, 2, 3, 1, 2, 3] [1, 2, 3] 3 t (fuel + 1) 0 slen =
          search [1, 2, 1, 2, 3, 1, 2, 3] [1, 2, 3] 3 t fuel (0 + t c) (slen - t c)) ∧
      ∀ k p' slen',
        search_state [1, 2, 1, 2, 3, 1, 2, 3] [1, 2, 3] 3 t k 0 8 = .ok (some (p', slen')) →
        (∀ q, q < p' → ¬ OccursAt [1, 2, 1, 2, 3, 1, 2, 3] [1, 2, 3] q) ∧
          ∀ fuel, search [1, 2, 1, 2, 3, 1, 2, 3] [1, 2, 3] 3 t (fuel + k) 0 8 =
            search [1, 2, 1, 2, 3, 1, 2, 3] [1, 2, 3] 3 t fuel p' slen' :=
  shift_never_skips [1, 2, 1, 2, 3, 1, 2, 3] [1, 2, 3] 0 (by decide) (by decide) (by decide)

/-! ## Bytes that `main` does not look at -/

theorem load_bytes_congr (B B' : List Byte) (n : Nat) :
    ∀ off, (∀ i, off ≤ i → B[i]? = B'[i]?) → load_bytes B off n = load_bytes B' off n := by
  induction n with
  | zero =>
    intro off _
    rfl
  | succ k ih =>
    intro off h
    have h0 := load_congr B B' off (h off (le_refl _))
    have hrec := ih (off + 1) (fun i hi => h i (by omega))
    simp only [load_bytes, h0, hrec]

theorem occursAt_congr (B B' pattern : List Byte) (j : Nat)
    (h : ∀ k, k < pattern.length → B[j + k]? = B'[j + k]?) :
    OccursAt B pattern j ↔ OccursAt B' pattern j := by
  rw [occursAt_iff, occursAt_iff]
  constructor
  · intro hb k hk
    rw [← h k hk]
    exact hb k hk
  · intro hb k hk
    rw [h k hk]
    exact hb k hk

theorem main_write_congr (w w' : World) (B B' : List Byte) (start len : Nat)
    (hout : w.out_file_ok = w'.out_file_ok) (hfw : w.fwrite_short = w'.fwrite_short)
    (h : ∀ i, start ≤ i → B[i]? = B'[i]?) :
    main_write w B start len = main_write w' B' start len := by
  simp only [main_write, hout, hfw, load_bytes_congr B B' len start h]

/-- C13. `FullSize` does not influence extraction: let `B` and `B'` be two
file contents of equal length that agree at every index outside
`m + 16 .. m + 19`, where `m` is the offset of the leftmost occurrence of the
signature in `B`.  Then the search of `main` gives the same result on both, the
range derived at `m` is the same, and two runs that differ only in reading `B`
or `B'` end the same way: same exit code and same output bytes. -/
theorem main_ignores_FullSize (w : World) (B B' : List Byte) (m : Nat)
    (hin : w.in_file = some B) (hlen : B.length = B'.length)
    (hsame : ∀ i, i < B.length → (i < m + 16 ∨ m + 20 ≤ i) → B[i]? = B'[i]?)
    (hocc : OccursAt B IFLASH_BIOSIMG_SIGNATURE m)
    (hfirst : ∀ j, j < m → ¬ OccursAt B IFLASH_BIOSIMG_SIGNATURE j) :
    main_search B = main_search B' ∧ main_range B m = main_range B' m ∧
      main w =
        main ⟨w.argc, some B', w.malloc_ok, w.fread_ok, w.out_file_ok, w.fwrite_short⟩ := by
  have hsig : IFLASH_BIOSIMG_SIGNATURE.length = 16 := rfl
  have hall : ∀ i, (i < m + 16 ∨ m + 20 ≤ i) → B[i]? = B'[i]? := by
    intro i hi
    by_cases hb : i < B.length
    · exact hsame i hb hi
    · rw [List.getElem?_eq_none (by omega), List.getElem?_eq_none (by omega)]
  have hbound := occursAt_bound hocc signature_ne_nil
  by_cases hlt : m + 16 < B.length
  · have hocc' : OccursAt B' IFLASH_BIOSIMG_SIGNATURE m :=
      (occursAt_congr B B' _ m (fun k hk => hall (m + k) (Or.inl (by omega)))).mp hocc
    have hfirst' : ∀ j, j < m → ¬ OccursAt B' IFLASH_BIOSIMG_SIGNATURE j := by
      intro j hj h
      exact hfirst j hj
        ((occursAt_congr B B' _ j (fun k hk => hall (j + k) (Or.inl (by omega)))).mpr h)
    have hs := main_search_leftmost B m hlt hocc hfirst
    have hs' := main_search_leftmost B' m (by omega) hocc' hfirst'
    have hu : load_u32 B (m + offsetof_UsedSize) = load_u32 B' (m + offsetof_UsedSize) :=
      load_u32_congr B B' _ (fun k _ => hall _ (Or.inr (by
        show m + 20 ≤ m + 20 + k
        omega)))
    have hr : main_range B m = main_range B' m := by
      simp only [main_range, hu]
    refine ⟨by rw [hs, hs'], hr, ?_⟩
    have hwr : ∀ len, main_write w B (m + sizeof_IFLASH_BIOSIMG_HEADER) len =
        main_write ⟨w.argc, some B', w.malloc_ok, w.fread_ok, w.out_file_ok, w.fwrite_short⟩
          B' (m + sizeof_IFLASH_BIOSIMG_HEADER) len := by
      intro len
      exact main_write_congr _ _ B B' _ len rfl rfl (fun i hi => hall i (Or.inr (by
        have h24 : m + 24 ≤ i := hi
        omega)))
    simp only [main, hin, hs, hs', main_range, hu, bind, Except.bind, pure, Except.pure]
    cases load_u32 B' (m + offsetof_UsedSize) with
    | error e => rfl
    | ok U => simp only [hwr U]
  · have hBB : B = B' := by
      apply List.ext_getElem?
      intro i
      by_cases hi : i < m + 16
      · exact hall i (Or.inl hi)
      · rw [List.getElem?_eq_none (by omega), List.getElem?_eq_none (by omega)]
    subst hBB
    refine ⟨rfl, rfl, ?_⟩
    have hw : (⟨w.argc, some B, w.malloc_ok, w.fread_ok, w.out_file_ok, w.fwrite_short⟩ :
        World) = w := by
      cases w
      simp only at hin
      rw [hin]
    rw [hw]

theorem main_ignores_FullSize_witness :
    main_search (IFLASH_BIOSIMG_SIGNATURE ++ [100, 0, 0, 0, 3, 0, 0, 0, 0xDE, 0xAD, 0xBE, 0xEF]) =
        main_search
          (IFLASH_BIOSIMG_SIGNATURE ++ [0x24, 0x5F, 7, 9, 3, 0, 0, 0, 0xDE, 0xAD, 0xBE, 0xEF]) ∧
      main_range (IFLASH_BIOSIMG_SIGNATURE ++ [100, 0, 0, 0, 3, 0, 0, 0, 0xDE, 0xAD, 0xBE, 0xEF])
          0 =
        main_range
          (IFLASH_BIOSIMG_SIGNATURE ++ [0x24, 0x5F, 7, 9, 3, 0, 0, 0, 0xDE, 0xAD, 0xBE, 0xEF]) 0 ∧
      main (World.loaded
          (IFLASH_BIOSIMG_SIGNATURE ++ [100, 0, 0, 0, 3, 0, 0, 0, 0xDE, 0xAD, 0xBE, 0xEF])) =
        main (World.loaded
          (IFLASH_BIOSIMG_SIGNATURE ++ [0x24, 0x5F, 7, 9, 3, 0, 0, 0, 0xDE, 0xAD, 0xBE, 0xEF])) :=
  main_ignores_FullSize
    (World.loaded
      (IFLASH_BIOSIMG_SIGNATURE ++ [100, 0, 0, 0, 3, 0, 0, 0, 0xDE, 0xAD, 0xBE, 0xEF]))
    (IFLASH_BIOSIMG_SIGNATURE ++ [100, 0, 0, 0, 3, 0, 0, 0, 0xDE, 0xAD, 0xBE, 0xEF])
    (IFLASH_BIOSIMG_SIGNATURE ++ [0x24, 0x5F, 7, 9, 3, 0, 0, 0, 0xDE, 0xAD, 0xBE, 0xEF])
    0 rfl (by decide) (by decide) (by decide) (by decide)

/-! ## Termination of the search loop -/

theorem search_count_ok (mem pattern : List Byte) (plen : Nat) (hplen : plen = pattern.length)
    (hpos : 0 < plen) (t : SkipTable) (hb : ∀ c, 1 ≤ t c ∧ t c ≤ plen) :
    ∀ fuel begin slen n, slen < fuel → begin + slen ≤ mem.length →
      ∃ r k, search_count mem pattern plen t fuel begin slen n = .ok (r, k) ∧
        k ≤ n + (slen + 1 - plen) ∧
        search mem pattern plen t fuel begin slen = .ok r := by
  intro fuel
  induction fuel with
  | zero =>
    intro begin slen n h
    omega
  | succ f ih =>
    intro begin slen n hfuel hmem
    by_cases hle : plen ≤ slen
    · obtain ⟨r0, hr0, _⟩ :=
        match_back_ok mem pattern begin (plen - 1) (by omega) (by omega)
      cases r0 with
      | true =>
        refine ⟨some begin, n + 1, ?_, by omega, ?_⟩
        · simp only [search_count, hle, if_true, hr0, bind, Except.bind, pure, Except.pure]
        · simp only [search, hle, if_true, hr0, bind, Except.bind, pure, Except.pure]
      | false =>
        have hlast : begin + (plen - 1) < mem.length := by omega
        have hsk := hb (mem[begin + (plen - 1)])
        have hsub : size_sub slen (t (mem[begin + (plen - 1)])) =
            slen - t (mem[begin + (plen - 1)]) := by
          unfold size_sub
          rw [if_pos (by omega)]
        obtain ⟨r, k, hc, hk, hr⟩ := ih (begin + t (mem[begin + (plen - 1)]))
          (slen - t (mem[begin + (plen - 1)])) (n + 1) (by omega) (by omega)
        refine ⟨r, k, ?_, by omega, ?_⟩
        · simp only [search_count, hle, if_true, hr0, bind, Except.bind, load_ok hlast, hsub]
          exact hc
        · simp only [search, hle, if_true, hr0, bind, Except.bind, load_ok hlast, hsub]
          exact hr
    · refine ⟨none, n, ?_, by omega, ?_⟩
      · simp only [search_count, hle, if_false, pure, Except.pure]
      · simp only [search, hle, if_false, pure, Except.pure]

/-- C14. The search terminates for every input: `find_pattern` returns a result
on every buffer `[begin, end_)` inside the memory.  When the loop is reached
(non-empty pattern, non-empty buffer), every skip `s` in the table satisfies
`1 ≤ s ≤ plen`, so that in an iteration, where `plen ≤ slen`, the subtraction
`slen -= s` does not wrap around and strictly decreases `slen`; and the loop is
left, with the match or `NULL` that `find_pattern` returns, after at most
`end_ - begin` executions of its body. -/
theorem find_pattern_terminates (mem pattern : List Byte) (begin : Nat) (end_ : Int)
    (hmem : end_ ≤ (mem.length : Int)) :
    (∃ r, find_pattern mem begin end_ pattern pattern.length = .ok r) ∧
      (pattern ≠ [] → (begin : Int) < end_ →
        ∃ t, skip_fill pattern (pattern.length - 1) (skip_init pattern.length)
            (pattern.length - 1) = .ok t ∧
          (∀ c slen, pattern.length ≤ slen →
            1 ≤ t c ∧ t c ≤ pattern.length ∧ t c ≤ slen ∧
              size_sub slen (t c) = slen - t c ∧ slen - t c < slen) ∧
          ∃ r k, search_count mem pattern pattern.length t
              ((end_ - (begin : Int)).toNat + 1) begin (end_ - (begin : Int)).toNat 0 =
                .ok (r, k) ∧
            k ≤ (end_ - (begin : Int)).toNat ∧
            find_pattern mem begin end_ pattern pattern.length = .ok r) := by
  constructor
  · obtain ⟨r, hr, _⟩ := find_pattern_window mem pattern begin end_ hmem
    exact ⟨r, hr⟩
  · intro hp hbe
    have hpos : 0 < pattern.length := List.length_pos.mpr hp
    obtain ⟨t, ht, hb, _⟩ := skip_fill_ok pattern (pattern.length - 1) pattern.length
      (by omega) (pattern.length - 1) (le_refl _) (by omega)
    refine ⟨t, ht, ?_, ?_⟩
    · intro c slen hslen
      have hbound := hb c
      have hsub : size_sub slen (t c) = slen - t c := by
        unfold size_sub
        rw [if_pos (by omega)]
      exact ⟨hbound.1, hbound.2, by omega, hsub, by omega⟩
    · obtain ⟨r, k, hc, hk, hr⟩ := search_count_ok mem pattern pattern.length rfl hpos t hb
        ((end_ - (begin : Int)).toNat + 1) begin (end_ - (begin : Int)).toNat 0
        (by omega) (by omega)
      refine ⟨r, k, hc, by omega, ?_⟩
      rw [find_pattern_eq_search mem pattern begin end_ t hp hbe ht]
      exact hr

theorem find_pattern_terminates_witness :
    (∃ r, find_pattern [1, 2, 1, 2, 3, 1, 2, 3] 1 7 [1, 2, 3] 3 = .ok r) ∧
      (([1, 2, 3] : List Byte) ≠ [] → ((1 : Nat) : Int) < 7 →
        ∃ t, skip_fill [1, 2, 3] 2 (skip_init 3) 2 = .ok t ∧
          (∀ c slen, 3 ≤ slen →
            1 ≤ t c ∧ t c ≤ 3 ∧ t c ≤ slen ∧
              size_sub slen (t c) = slen - t c ∧ slen - t c < slen) ∧
          ∃ r k, search_count [1, 2, 1, 2, 3, 1, 2, 3] [1, 2, 3] 3 t (6 + 1) 1 6 0 =
                .ok (r, k) ∧
            k ≤ 6 ∧
            find_pattern [1, 2, 1, 2, 3, 1, 2, 3] 1 7 [1, 2, 3] 3 = .ok r) :=
  find_pattern_terminates [1, 2, 1, 2, 3, 1, 2, 3] [1, 2, 3] 1 7 (by decide)

/-! ## The reads of the search -/

theorem window_take (mem : List Byte) (begin : Nat) (end_ : Int) :
    window (mem.take end_.toNat) begin end_ = window mem begin end_ := by
  by_cases hbe : end_ ≤ (begin : Int)
  · have h0 : (end_ - (begin : Int)).toNat = 0 := by omega
    unfold window
    rw [h0, List.take_zero, List.take_zero]
  · obtain ⟨n, hn⟩ : ∃ n : Nat, end_ = (begin : Int) + (n : Int) :=
      ⟨(end_ - (begin : Int)).toNat, by omega⟩
    subst hn
    apply List.ext_getElem?
    intro k
    rw [window_getElem?, window_getElem?]
    by_cases hk : k < n
    · have hlt : begin + k < ((begin : Int) + (n : Int)).toNat := by omega
      rw [if_pos hk, if_pos hk, List.getElem?_take_of_lt hlt]
    · rw [if_neg hk, if_neg hk]

theorem find_pattern_same_window (mem mem' pattern : List Byte) (begin : Nat) (end_ : Int)
    (hmem : end_ ≤ (mem.length : Int)) (hmem' : end_ ≤ (mem'.length : Int))
    (hw : window mem' begin end_ = window mem begin end_) (r : Option Nat)
    (hr : find_pattern mem begin end_ pattern pattern.length = .ok r) :
    find_pattern mem' begin end_ pattern pattern.length = .ok r := by
  by_cases hp : pattern = []
  · subst hp
    simp only [find_pattern, List.length_nil, true_or, if_true] at hr ⊢
    exact hr
  · obtain ⟨r1, hr1, hspec1⟩ := find_pattern_window mem pattern begin end_ hmem
    obtain ⟨r2, hr2, hspec2⟩ := find_pattern_window mem' pattern begin end_ hmem'
    rw [hw] at hspec2
    rw [hr1] at hr
    have hrr : r1 = r := by
      injection hr
    subst hrr
    rw [hr2]
    cases r1 with
    | none =>
      cases r2 with
      | none => rfl
      | some p2 =>
        obtain ⟨i, _, hocc, _⟩ := hspec2
        exact absurd hocc (hspec1 hp i)
    | some p1 =>
      obtain ⟨i1, hi1, hocc1, hfirst1⟩ := hspec1
      cases r2 with
      | none => exact absurd hocc1 (hspec2 hp i1)
      | some p2 =>
        obtain ⟨i2, hi2, hocc2, hfirst2⟩ := hspec2
        have h1 : ¬ i1 < i2 := fun h => hfirst2 i1 h hocc1
        have h2 : ¬ i2 < i1 := fun h => hfirst1 i2 h hocc2
        have h3 : i1 = i2 := by omega
        rw [hi1, hi2, h3]

theorem skip_init_log_inside (begin : Nat) (end_ : Int) (plen : Nat) :
    ∀ a, a ∈ skip_init_log → Access.inside begin end_ plen a := by
  intro a ha
  unfold skip_init_log at ha
  rw [List.mem_map] at ha
  obtain ⟨i, hi, rfl⟩ := ha
  exact List.mem_range.mp hi

theorem skip_fill_log_ok (pattern : List Byte) (last : Nat) (tbl : SkipTable) (begin : Nat)
    (end_ : Int) (plen : Nat) (k : Nat) (hk : k ≤ pattern.length) (hkp : k ≤ plen) :
    ∃ t log, skip_fill_log pattern last tbl k = .ok (t, log) ∧
      skip_fill pattern last tbl k = .ok t ∧
      ∀ a, a ∈ log → Access.inside begin end_ plen a := by
  induction k with
  | zero =>
    refine ⟨tbl, [], rfl, rfl, ?_⟩
    intro a ha
    exact absurd ha (List.not_mem_nil a)
  | succ n ih =>
    obtain ⟨t, log, hl, ht, hin⟩ := ih (by omega) (by omega)
    have hn : n < pattern.length := by omega
    refine ⟨fun b => if b = pattern[n] then last - n else t b,
      log ++ [Access.pattern n, Access.skip (pattern[n]).val], ?_, ?_, ?_⟩
    · simp only [skip_fill_log, hl, load_ok hn, bind, Except.bind, pure, Except.pure]
    · simp only [skip_fill, ht, load_ok hn, bind, Except.bind, pure, Except.pure]
    · intro a ha
      rw [List.mem_append] at ha
      rcases ha with ha | ha
      · exact hin a ha
      · simp only [List.mem_cons, List.mem_singleton, List.not_mem_nil, or_false] at ha
        rcases ha with rfl | rfl
        · show n < plen
          omega
        · exact (pattern[n]).isLt

theorem match_back_log_ok (mem pattern : List Byte) (begin scan lo : Nat) (end_ : Int)
    (plen : Nat) (hm : begin + scan < mem.length) (hp : scan < pattern.length)
    (hlo : lo ≤ begin) (hhi : ((begin + scan : Nat) : Int) < end_) (hpl : scan < plen) :
    ∃ r log, match_back_log mem pattern begin scan = .ok (r, log) ∧
      match_back mem pattern begin scan = .ok r ∧
      ∀ a, a ∈ log → Access.inside lo end_ plen a := by
  induction scan with
  | zero =>
    have h0 : begin + 0 < mem.length := hm
    refine ⟨decide (mem[begin + 0] = pattern[0]),
      [Access.buffer (begin + 0), Access.pattern 0], ?_, ?_, ?_⟩
    · simp only [match_back_log, load_ok h0, load_ok hp, bind, Except.bind, pure, Except.pure]
    · simp only [match_back, load_ok h0, load_ok hp, bind, Except.bind, pure, Except.pure]
    · intro a ha
      simp only [List.mem_cons, List.mem_singleton, List.not_mem_nil, or_false] at ha
      rcases ha with rfl | rfl
      · show lo ≤ begin + 0 ∧ ((begin + 0 : Nat) : Int) < end_
        exact ⟨by omega, hhi⟩
      · exact hpl
  | succ n ih =>
    have hhere : ∀ a, a ∈ [Access.buffer (begin + (n + 1)), Access.pattern (n + 1)] →
        Access.inside lo end_ plen a := by
      intro a ha
      simp only [List.mem_cons, List.mem_singleton, List.not_mem_nil, or_false] at ha
      rcases ha with rfl | rfl
      · show lo ≤ begin + (n + 1) ∧ ((begin + (n + 1) : Nat) : Int) < end_
        exact ⟨by omega, hhi⟩
      · exact hpl
    by_cases heq : mem[begin + (n + 1)] = pattern[n + 1]
    · obtain ⟨r, log, hl, hr, hin⟩ := ih (by omega) (by omega) (by omega) (by omega)
      refine ⟨r, [Access.buffer (begin + (n + 1)), Access.pattern (n + 1)] ++ log, ?_, ?_, ?_⟩
      · simp only [match_back_log, load_ok hm, load_ok hp, bind, Except.bind, heq, if_true, hl,
          pure, Except.pure]
      · simp only [match_back, load_ok hm, load_ok hp, bind, Except.bind, heq, if_true]
        exact hr
      · intro a ha
        rw [List.mem_append] at ha
        rcases ha with ha | ha
        · exact hhere a ha
        · exact hin a ha
    · refine ⟨false, [Access.buffer (begin + (n + 1)), Access.pattern (n + 1)], ?_, ?_, hhere⟩
      · simp only [match_back_log, load_ok hm, load_ok hp, bind, Except.bind, heq, if_false,
          pure, Except.pure]
      · simp only [match_back, load_ok hm, load_ok hp, bind, Except.bind, heq, if_false,
          pure, Except.pure]

theorem access_inside_mono (lo lo' : Nat) (end_ : Int) (plen : Nat) (h : lo ≤ lo')
    (a : Access) (ha : Access.inside lo' end_ plen a) : Access.inside lo end_ plen a := by
  cases a with
  | buffer i => exact ⟨le_trans h ha.1, ha.2⟩
  | pattern i => exact ha
  | skip i => exact ha

theorem search_log_ok (mem pattern : List Byte) (plen : Nat) (hplen : plen = pattern.length)
    (hpos : 0 < plen) (t : SkipTable) (hb : ∀ c, 1 ≤ t c ∧ t c ≤ plen) (lo : Nat) :
    ∀ fuel begin slen, slen < fuel → begin + slen ≤ mem.length → lo ≤ begin →
      ∃ r log, search_log mem pattern plen t fuel begin slen = .ok (r, log) ∧
        search mem pattern plen t fuel begin slen = .ok r ∧
        ∀ a, a ∈ log → Access.inside lo ((begin + slen : Nat) : Int) plen a := by
  intro fuel
  induction fuel with
  | zero =>
    intro begin slen h
    omega
  | succ f ih =>
    intro begin slen hfuel hmem hlo
    by_cases hle : plen ≤ slen
    · obtain ⟨r0, l0, hl0, hr0, hin0⟩ :=
        match_back_log_ok mem pattern begin (plen - 1) lo ((begin + slen : Nat) : Int) plen
          (by omega) (by omega) hlo (by omega) (by omega)
      cases r0 with
      | true =>
        refine ⟨some begin, l0, ?_, ?_, hin0⟩
        · simp only [search_log, hle, if_true, hl0, bind, Except.bind, pure, Except.pure]
        · simp only [search, hle, if_true, hr0, bind, Except.bind, pure, Except.pure]
      | false =>
        have hlast : begin + (plen - 1) < mem.length := by omega
        have hsk := hb (mem[begin + (plen - 1)])
        have hsub : size_sub slen (t (mem[begin + (plen - 1)])) =
            slen - t (mem[begin + (plen - 1)]) := by
          unfold size_sub
          rw [if_pos (by omega)]
        obtain ⟨r, l1, hl1, hr1, hin1⟩ := ih (begin + t (mem[begin + (plen - 1)]))
          (slen - t (mem[begin + (plen - 1)])) (by omega) (by omega) (by omega)
        have hend : begin + t (mem[begin + (plen - 1)]) +
            (slen - t (mem[begin + (plen - 1)])) = begin + slen := by omega
        rw [hend] at hin1
        refine ⟨r, l0 ++ [Access.buffer (begin + (plen - 1)),
          Access.skip (mem[begin + (plen - 1)]).val, Access.buffer (begin + (plen - 1)),
          Access.skip (mem[begin + (plen - 1)]).val] ++ l1, ?_, ?_, ?_⟩
        · simp only [search_log, hle, if_true, hl0, bind, Except.bind, load_ok hlast, hsub,
            hl1, pure, Except.pure]
          rfl
        · simp only [search, hle, if_true, hr0, bind, Except.bind, load_ok hlast, hsub]
          exact hr1
        · intro a ha
          rw [List.mem_append, List.mem_append] at ha
          rcases ha with (ha | ha) | ha
          · exact hin0 a ha
          · simp only [List.mem_cons, List.mem_singleton, List.not_mem_nil, or_false] at ha
            rcases ha with rfl | rfl | rfl | rfl
            · show lo ≤ begin + (plen - 1) ∧
                ((begin + (plen - 1) : Nat) : Int) < ((begin + slen : Nat) : Int)
              exact ⟨by omega, by omega⟩
            · exact (mem[begin + (plen - 1)]).isLt
            · show lo ≤ begin + (plen - 1) ∧
                ((begin + (plen - 1) : Nat) : Int) < ((begin + slen : Nat) : Int)
              exact ⟨by omega, by omega⟩
            · exact (mem[begin + (plen - 1)]).isLt
          · exact hin1 a ha
    · refine ⟨none, [], ?_, ?_, ?_⟩
      · simp only [search_log, hle, if_false, pure, Except.pure]
      · simp only [search, hle, if_false, pure, Except.pure]
      · intro a ha
        exact absurd ha (List.not_mem_nil a)

theorem find_pattern_log_ok (mem pattern : List Byte) (begin : Nat) (end_ : Int)
    (hmem : end_ ≤ (mem.length : Int)) :
    ∃ r log, find_pattern_log mem begin end_ pattern pattern.length = .ok (r, log) ∧
      find_pattern mem begin end_ pattern pattern.length = .ok r ∧
      ∀ a, a ∈ log → Access.inside begin end_ pattern.length a := by
  by_cases hg : pattern.length = 0 ∨ end_ ≤ (begin : Int)
  · refine ⟨none, [], ?_, ?_, ?_⟩
    · simp only [find_pattern_log, hg, if_true, pure, Except.pure]
    · simp only [find_pattern, hg, if_true, pure, Except.pure]
    · intro a ha
      exact absurd ha (List.not_mem_nil a)
  · have hpos : 0 < pattern.length := by omega
    obtain ⟨n, hn⟩ : ∃ n : Nat, end_ = (begin : Int) + (n : Int) :=
      ⟨(end_ - (begin : Int)).toNat, by omega⟩
    subst hn
    have hslen : ((begin : Int) + (n : Int) - (begin : Int)).toNat = n := by omega
    obtain ⟨t, l1, hl1, ht, hin1⟩ := skip_fill_log_ok pattern (pattern.length - 1)
      (skip_init pattern.length) begin ((begin : Int) + (n : Int)) pattern.length
      (pattern.length - 1) (by omega) (by omega)
    obtain ⟨t', ht', hb, _⟩ := skip_fill_ok pattern (pattern.length - 1) pattern.length
      (by omega) (pattern.length - 1) (le_refl _) (by omega)
    have htt : t' = t := by
      rw [ht] at ht'
      injection ht' with h
      exact h.symm
    subst htt
    obtain ⟨r, l2, hl2, hr, hin2⟩ := search_log_ok mem pattern pattern.length rfl hpos t' hb
      begin (n + 1) begin n (by omega) (by omega) (le_refl _)
    refine ⟨r, skip_init_log ++ l1 ++ l2, ?_, ?_, ?_⟩
    · simp only [find_pattern_log, hg, if_false, hl1, hslen, hl2, bind, Except.bind, pure,
        Except.pure]
    · simp only [find_pattern, hg, if_false, ht, hslen, bind, Except.bind]
      exact hr
    · intro a ha
      rw [List.mem_append, List.mem_append] at ha
      rcases ha with (ha | ha) | ha
      · exact skip_init_log_inside _ _ _ a ha
      · exact hin1 a ha
      · have h := hin2 a ha
        have hcast : ((begin + n : Nat) : Int) = (begin : Int) + (n : Int) := by omega
        rw [hcast] at h
        exact h

theorem skip_fill_log_fst (pattern : List Byte) (last : Nat) (tbl : SkipTable) (k : Nat) :
    Except.map Prod.fst (skip_fill_log pattern last tbl k) = skip_fill pattern last tbl k := by
  induction k with
  | zero => rfl
  | succ n ih =>
    cases h1 : skip_fill_log pattern last tbl n with
    | error e =>
      rw [h1] at ih
      simp only [skip_fill_log, skip_fill, h1, ← ih, bind, Except.bind, Except.map]
    | ok x =>
      rw [h1] at ih
      cases h2 : load pattern n with
      | error e =>
        simp only [skip_fill_log, skip_fill, h1, h2, ← ih, bind, Except.bind, Except.map]
      | ok c =>
        simp only [skip_fill_log, skip_fill, h1, h2, ← ih, bind, Except.bind, Except.map,
          pure, Except.pure]

theorem match_back_log_fst (mem pattern : List Byte) (begin scan : Nat) :
    Except.map Prod.fst (match_back_log mem pattern begin scan) =
      match_back mem pattern begin scan := by
  induction scan with
  | zero =>
    cases h1 : load mem (begin + 0) with
    | error e => simp only [match_back_log, match_back, h1, bind, Except.bind, Except.map]
    | ok a =>
      cases h2 : load pattern 0 with
      | error e => simp only [match_back_log, match_back, h1, h2, bind, Except.bind, Except.map]
      | ok b =>
        simp only [match_back_log, match_back, h1, h2, bind, Except.bind, Except.map, pure,
          Except.pure]
  | succ n ih =>
    cases h1 : load mem (begin + (n + 1)) with
    | error e => simp only [match_back_log, match_back, h1, bind, Except.bind, Except.map]
    | ok a =>
      cases h2 : load pattern (n + 1) with
      | error e => simp only [match_back_log, match_back, h1, h2, bind, Except.bind, Except.map]
      | ok b =>
        by_cases heq : a = b
        · cases h3 : match_back_log mem pattern begin n with
          | error e =>
            rw [h3] at ih
            simp only [match_back_log, match_back, h1, h2, h3, heq, if_true, ← ih, bind,
              Except.bind, Except.map]
          | ok x =>
            rw [h3] at ih
            simp only [match_back_log, match_back, h1, h2, h3, heq, if_true, ← ih, bind,
              Except.bind, Except.map, pure, Except.pure]
        · simp only [match_back_log, match_back, h1, h2, heq, if_false, bind, Except.bind,
            Except.map, pure, Except.pure]

theorem search_log_fst (mem pattern : List Byte) (plen : Nat) (t : SkipTable) :
    ∀ fuel begin slen,
      Except.map Prod.fst (search_log mem pattern plen t fuel begin slen) =
        search mem pattern plen t fuel begin slen := by
  intro fuel
  induction fuel with
  | zero =>
    intro begin slen
    rfl
  | succ f ih =>
    intro begin slen
    by_cases hle : plen ≤ slen
    · have hm := match_back_log_fst mem pattern begin (plen - 1)
      cases h1 : match_back_log mem pattern begin (plen - 1) with
      | error e =>
        rw [h1] at hm
        simp only [search_log, search, hle, if_true, h1, ← hm, bind, Except.bind, Except.map]
      | ok x =>
        rw [h1] at hm
        cases hx : x.1 with
        | true =>
          simp only [search_log, search, hle, if_true, h1, ← hm, hx, bind, Except.bind,
            Except.map, pure, Except.pure]
        | false =>
          cases h2 : load mem (begin + (plen - 1)) with
          | error e =>
            simp only [search_log, search, hle, if_true, h1, ← hm, hx, h2, bind, Except.bind,
              Except.map]
            rfl
          | ok c =>
            have hrec := ih (begin + t c) (size_sub slen (t c))
            cases h3 : search_log mem pattern plen t f (begin + t c) (size_sub slen (t c)) with
            | error e =>
              rw [h3] at hrec
              simp only [search_log, search, hle, if_true, h1, ← hm, hx, h2, h3, ← hrec, bind,
                Except.bind, Except.map]
              rfl
            | ok y =>
              rw [h3] at hrec
              simp only [search_log, search, hle, if_true, h1, ← hm, hx, h2, h3, ← hrec, bind,
                Except.bind, Except.map, pure, Except.pure]
              rfl
    · simp only [search_log, search, hle, if_false, Except.map, pure, Except.pure]

/-- Erasing the list of accesses from `find_pattern_log` gives `find_pattern`, on
every input. -/
theorem find_pattern_log_fst (mem : List Byte) (begin : Nat) (end_ : Int)
    (pattern : List Byte) (plen : Nat) :
    Except.map Prod.fst (find_pattern_log mem begin end_ pattern plen) =
      find_pattern mem begin end_ pattern plen := by
  by_cases hg : plen = 0 ∨ end_ ≤ (begin : Int)
  · simp only [find_pattern_log, find_pattern, hg, if_true, Except.map, pure, Except.pure]
  · have hs := skip_fill_log_fst pattern (plen - 1) (skip_init plen) (plen - 1)
    cases h1 : skip_fill_log pattern (plen - 1) (skip_init plen) (plen - 1) with
    | error e =>
      rw [h1] at hs
      simp only [find_pattern_log, find_pattern, hg, if_false, h1, ← hs, bind, Except.bind,
        Except.map]
    | ok x =>
      rw [h1] at hs
      have hrec := search_log_fst mem pattern plen x.1 ((end_ - (begin : Int)).toNat + 1)
        begin (end_ - (begin : Int)).toNat
      cases h2 : search_log mem pattern plen x.1 ((end_ - (begin : Int)).toNat + 1) begin
          (end_ - (begin : Int)).toNat with
      | error e =>
        rw [h2] at hrec
        simp only [find_pattern_log, find_pattern, hg, if_false, h1, ← hs, h2, ← hrec, bind,
          Except.bind, Except.map]
      | ok y =>
        rw [h2] at hrec
        simp only [find_pattern_log, find_pattern, hg, if_false, h1, ← hs, h2, ← hrec, bind,
          Except.bind, Except.map, pure, Except.pure]

/-- C15. The search reads only inside the buffer: for every buffer
`[begin, end_)` inside the memory and every pattern object of exactly `plen`
bytes, the call of `find_pattern` makes its array accesses (`find_pattern_log`
lists them all) without a fault, and every buffer read `begin[scan]` or
`begin[last]` is at an offset `i` with `begin ≤ i < end_`, every pattern read at
an index `< plen`, every skip-table access at an index `< 256`.  The call
returns the same result, never the fault of a read outside an object, also when
the memory ends at `end_`, and on every other memory that holds the same bytes
in `[begin, end_)`.  On every input, `find_pattern_log` without its list is
`find_pattern`. -/
theorem find_pattern_reads_inside (mem pattern : List Byte) (begin : Nat) (end_ : Int)
    (hmem : end_ ≤ (mem.length : Int)) :
    ∃ r log, find_pattern_log mem begin end_ pattern pattern.length = .ok (r, log) ∧
      (∀ i, Access.buffer i ∈ log → begin ≤ i ∧ (i : Int) < end_) ∧
      (∀ i, Access.pattern i ∈ log → i < pattern.length) ∧
      (∀ i, Access.skip i ∈ log → i < 256) ∧
      find_pattern mem begin end_ pattern pattern.length = .ok r ∧
      (∀ i, find_pattern mem begin end_ pattern pattern.length ≠ .error (.outOfBounds i)) ∧
      find_pattern (mem.take end_.toNat) begin end_ pattern pattern.length = .ok r ∧
      (∀ mem' : List Byte, end_ ≤ (mem'.length : Int) →
        window mem' begin end_ = window mem begin end_ →
        find_pattern mem' begin end_ pattern pattern.length = .ok r) ∧
      ∀ (m : List Byte) (b : Nat) (e : Int) (p : List Byte) (n : Nat),
        Except.map Prod.fst (find_pattern_log m b e p n) = find_pattern m b e p n := by
  obtain ⟨r, log, hl, hr, hin⟩ := find_pattern_log_ok mem pattern begin end_ hmem
  refine ⟨r, log, hl, fun i hi => hin _ hi, fun i hi => hin _ hi, fun i hi => hin _ hi, hr,
    ?_, ?_, ?_, find_pattern_log_fst⟩
  · intro i h
    rw [hr] at h
    exact absurd h (by simp)
  · apply find_pattern_same_window mem (mem.take end_.toNat) pattern begin end_ hmem ?_
      (window_take mem begin end_) r hr
    rw [List.length_take]
    omega
  · intro mem' hmem' hw
    exact find_pattern_same_window mem mem' pattern begin end_ hmem hmem' hw r hr

set_option maxRecDepth 8000 in
theorem find_pattern_reads_inside_witness :
    (∃ r log, find_pattern_log [9, 1, 2, 1, 2, 3, 1, 2, 3, 9, 9] 1 9 [1, 2, 3] 3 =
        .ok (r, log) ∧
      (∀ i, Access.buffer i ∈ log → 1 ≤ i ∧ (i : Int) < 9) ∧
      (∀ i, Access.pattern i ∈ log → i < 3) ∧
      (∀ i, Access.skip i ∈ log → i < 256) ∧
      find_pattern [9, 1, 2, 1, 2, 3, 1, 2, 3, 9, 9] 1 9 [1, 2, 3] 3 = .ok r ∧
      (∀ i, find_pattern [9, 1, 2, 1, 2, 3, 1, 2, 3, 9, 9] 1 9 [1, 2, 3] 3 ≠
        .error (.outOfBounds i)) ∧
      find_pattern (([9, 1, 2, 1, 2, 3, 1, 2, 3, 9, 9] : List Byte).take (9 : Int).toNat) 1 9
        [1, 2, 3] 3 = .ok r ∧
      (∀ mem' : List Byte, (9 : Int) ≤ (mem'.length : Int) →
        window mem' 1 9 = window [9, 1, 2, 1, 2, 3, 1, 2, 3, 9, 9] 1 9 →
        find_pattern mem' 1 9 [1, 2, 3] 3 = .ok r) ∧
      ∀ (m : List Byte) (b : Nat) (e : Int) (p : List Byte) (n : Nat),
        Except.map Prod.fst (find_pattern_log m b e p n) = find_pattern m b e p n) ∧
    find_pattern_log [9, 1, 2, 1, 2, 3, 1, 2, 3, 9, 9] 1 9 [1, 2, 3] 3 =
      .ok (some 3, skip_init_log ++
        [Access.pattern 0, Access.skip 1, Access.pattern 1, Access.skip 2,
         Access.buffer 3, Access.pattern 2,
         Access.buffer 3, Access.skip 1, Access.buffer 3, Access.skip 1,
         Access.buffer 5, Access.pattern 2, Access.buffer 4, Access.pattern 1,
         Access.buffer 3, Access.pattern 0]) :=
  ⟨find_pattern_reads_inside [9, 1, 2, 1, 2, 3, 1, 2, 3, 9, 9] [1, 2, 3] 1 9 (by decide), rfl⟩

/-! ## Bounds of the skip values -/

/-- C16. Skip values are bounded: for a non-empty pattern of length `plen`,
table construction succeeds and every entry satisfies
`1 ≤ bad_char_skip[b] ≤ plen`; no entry is 0, so a shift moves the window start
of the loop of `find_pattern` forward by at least one position. -/
theorem skip_values_bounded (pattern : List Byte) (hp : pattern ≠ []) :
    ∃ t, skip_fill pattern (pattern.length - 1) (skip_init pattern.length)
        (pattern.length - 1) = .ok t ∧
      (∀ b : Byte, 1 ≤ t b ∧ t b ≤ pattern.length) ∧
      (∀ b : Byte, t b ≠ 0 ∧ ∀ begin : Nat, begin < begin + t b) ∧
      ∀ (mem : List Byte) (begin : Nat) (end_ : Int), (begin : Int) < end_ →
        find_pattern mem begin end_ pattern pattern.length =
          search mem pattern pattern.length t ((end_ - (begin : Int)).toNat + 1) begin
            (end_ - (begin : Int)).toNat := by
  have hpos : 0 < pattern.length := List.length_pos.mpr hp
  obtain ⟨t, ht, hb, _⟩ := skip_fill_ok pattern (pattern.length - 1) pattern.length
    (by omega) (pattern.length - 1) (le_refl _) (by omega)
  refine ⟨t, ht, hb, ?_, ?_⟩
  · intro b
    have := hb b
    exact ⟨by omega, fun begin => by omega⟩
  · intro mem begin end_ hbe
    exact find_pattern_eq_search mem pattern begin end_ t hp hbe ht

theorem skip_values_bounded_witness :
    ∃ t, skip_fill [1, 2, 1, 3, 1] 4 (skip_init 5) 4 = .ok t ∧
      (∀ b : Byte, 1 ≤ t b ∧ t b ≤ 5) ∧
      (∀ b : Byte, t b ≠ 0 ∧ ∀ begin : Nat, begin < begin + t b) ∧
      ∀ (mem : List Byte) (begin : Nat) (end_ : Int), (begin : Int) < end_ →
        find_pattern mem begin end_ [1, 2, 1, 3, 1] 5 =
          search mem [1, 2, 1, 3, 1] 5 t ((end_ - (begin : Int)).toNat + 1) begin
            (end_ - (begin : Int)).toNat :=
  skip_values_bounded [1, 2, 1, 3, 1] (by decide)

end InsydeImageExtractor
